import Mathlib

/-!
Verification development for the sum-product factor-graph engine in
`bayesian/factor_graph.py` (repository `mkdmkk/bayesian-belief-networks`).

Shallow embedding conventions:
* Python callables that compute factor values are embedded as `FFunc V`:
  the `__name__` attribute, the `argspec` attribute (explicit parameter-name
  list), the optional `domains` attribute (absent attribute = `none`), and
  the evaluation behaviour `run`.  The Python code always rebuilds positional
  argument lists from the `.name` attributes of the `VariableNode` arguments
  it is passed (`template.index(arg.name)`, `dict([(a.name, a) ...])`), so a
  call is embedded as evaluation against a name-keyed binding
  `List (String × V)`; a Python exception during a call is `none`.
* Numbers are `ℚ`; discrete variable values are a type `V` with decidable
  equality (the repository's examples use Python booleans).
* Nodes are referenced by their index in the graph's node list; the
  `received_messages` dict of a node is an association list keyed by the
  sender's `name`, with dict assignment overwriting an existing key in place.
* The `factors` provenance lists stored on messages and product functions
  are inspection-only metadata (never used operationally by the engine), and
  are not carried by the embedding.
-/

namespace BayesFG

/-- A call-time binding: one (variable name, value) pair per bound
parameter, standing for the list of `VariableNode` objects a Python
callable receives. -/
abbrev Binding (V : Type) := List (String × V)

/-- Python `dict.update`: entries of `upd` override entries of `old`
with the same key; all other entries are kept. -/
def dictUpdate {β : Type} (old upd : List (String × β)) : List (String × β) :=
  old.filter (fun p => (upd.lookup p.1).isNone) ++ upd

/-- A factor-valued Python callable: its `__name__`, its parameter-name
list (`argspec`), its optional `domains` attribute (`none` when the
attribute is absent), and its evaluation behaviour on a name-keyed
binding (`none` models a raised exception). -/
structure FFunc (V : Type) where
  name : String
  argspec : List String
  domains : Option (List (String × List V))
  run : Binding V → Option ℚ

/-- The argument passed to `Message.__call__`: either a `VariableNode`
carrying a (name, value) pair, or some other Python object such as the
placeholder string `dummy`. -/
inductive PyArg (V : Type) where
  | varNode (vname : String) (value : V)
  | strArg (s : String)

def unityName : String := "unity"

/-- `unity` (module level): a zero-parameter callable returning 1; calling
it with any positional argument is a `TypeError`.  `get_args` on it yields
the empty list via `inspect`. -/
def unity (V : Type) : FFunc V :=
  { name := unityName
    argspec := []
    domains := none
    run := fun bnd => match bnd with | [] => some 1 | _ => none }

/-- A `Message` (`VariableMessage` or `FactorMessage`): source and
destination node indices, the `argspec` copied from the callable at
construction, the callable itself, and the optional `domains` attribute
(set from the callable by `FactorMessage.__init__`, absent on a
`VariableMessage`). -/
structure Message (V : Type) where
  source : Nat
  destination : Nat
  argspec : List String
  func : FFunc V
  domains : Option (List (String × List V))

/-- `VariableMessage.__init__`: records source, destination and the
callable; `argspec` is `get_args(func)`; no `domains` attribute is set. -/
def VariableMessage {V : Type} (source destination : Nat) (func : FFunc V) : Message V :=
  { source := source
    destination := destination
    argspec := func.argspec
    func := func
    domains := none }

/-- `FactorMessage.__init__`: like `VariableMessage` but additionally
reads `func.domains`, which raises `AttributeError` when the callable has
no `domains` attribute. -/
def FactorMessage {V : Type} (source destination : Nat) (func : FFunc V) :
    Option (Message V) :=
  match func.domains with
  | none => none
  | some d =>
    some { source := source
           destination := destination
           argspec := func.argspec
           func := func
           domains := some d }

/-- `Message.__call__(var)`: when the underlying callable's `__name__` is
`unity`, return 1 without inspecting the argument at all; otherwise
`assert isinstance(var, VariableNode)` (a non-`VariableNode` argument
fails the assertion before the callable is invoked) and then invoke the
callable on the variable. -/
def Message.call {V : Type} (m : Message V) (arg : PyArg V) : Option ℚ :=
  if m.func.name = unityName then some 1
  else
    match arg with
    | .varNode n v => m.func.run [(n, v)]
    | .strArg _ => none

/-- An element of the `factors` list handed to `make_product_func`:
either a plain factor callable or a `Message` object (whose invocation
goes through `Message.__call__`). -/
inductive Constituent (V : Type) where
  | fn (f : FFunc V)
  | msg (m : Message V)

/-- `get_args` on a product constituent (both kinds carry an explicit
`argspec` attribute). -/
def Constituent.argspec {V : Type} : Constituent V → List String
  | .fn f => f.argspec
  | .msg m => m.argspec

/-- `hasattr(factor, 'domains')` plus the attribute's value. -/
def Constituent.domains {V : Type} : Constituent V → Option (List (String × List V))
  | .fn f => f.domains
  | .msg m => m.domains

/-- The argument list `product_func` builds for one constituent: the
entries of the binding whose names occur in the constituent's own
`argspec`, in the constituent's own parameter order (absent names are
skipped). -/
def Constituent.callArgs {V : Type} (c : Constituent V) (bnd : Binding V) : Binding V :=
  c.argspec.filterMap (fun a => (bnd.lookup a).map (fun v => (a, v)))

/-- `factor(*factor_args)` as performed inside `product_func`: an empty
argument list is replaced by the single placeholder `dummy`.  A plain
callable receiving the placeholder (or receiving nothing it can read a
`.name` from) raises; a `Message` is always invoked through
`Message.__call__`, which takes exactly one argument. -/
def Constituent.invoke {V : Type} (c : Constituent V) (restricted : Binding V) : Option ℚ :=
  match c with
  | .fn f =>
    match restricted with
    | [] => none
    | _ => f.run restricted
  | .msg m =>
    match restricted with
    | [] => m.call (.strArg "dummy")
    | [(n, v)] => m.call (.varNode n v)
    | _ => none

def productName : String := "product_func"

/-- One step of the `domains.update(factor.domains)` loop in
`make_product_func`: constituents without the attribute are skipped. -/
def domStep {V : Type} [DecidableEq V] (acc : List (String × List V))
    (c : Constituent V) : List (String × List V) :=
  match c.domains with
  | some d => dictUpdate acc d
  | none => acc

/-- The `domains` dict accumulated by `make_product_func`. -/
def productDomains {V : Type} [DecidableEq V] (factors : List (Constituent V)) :
    List (String × List V) :=
  factors.foldl domStep []

/-- `make_product_func(factors)`: the returned callable's `argspec` is the
deduplicated concatenation of the constituents' argspecs
(`list(set(all_args))`), its `domains` attribute is the `dict.update`
fold of the constituents' `domains` (skipping constituents without the
attribute), and evaluation multiplies each constituent's result on the
subset of the binding matching that constituent's own parameters. -/
def make_product_func {V : Type} [DecidableEq V] (factors : List (Constituent V)) : FFunc V :=
  { name := productName
    argspec := ((factors.map Constituent.argspec).flatten).dedup
    domains := some (productDomains factors)
    run := fun bnd =>
      (factors.mapM (fun c => Constituent.invoke c (Constituent.callArgs c bnd))).map
        List.prod }

def eliminatedName : String := "eliminated"

/-- The inner `eliminated` closure returned by `eliminate_var`: it drops
`var` from the argspec (`new_spec.remove(var)` drops the first
occurrence); evaluating it places the incoming arguments at their
positions in the original argspec (raising when a name is not an
original parameter), then sums `f` over every value of `var` in
`f.domains[var]` (a missing key raises `KeyError`). -/
def eliminatedBody {V : Type} [DecidableEq V] (f : FFunc V) (var : String)
    (d : List (String × List V)) : FFunc V :=
  { name := eliminatedName
    argspec := f.argspec.erase var
    domains := some d
    run := fun bnd =>
      if bnd.all (fun p => f.argspec.contains p.1) then
        match d.lookup var with
        | none => none
        | some vals =>
          (vals.mapM
            (fun v => f.run ((var, v) :: bnd.filter (fun p => p.1 != var)))).map
            List.sum
      else none }

/-- `eliminate_var(f, var)`: requires `var` to occur in `f`'s argspec
(`arg_spec.index(var)` raises otherwise), requires the `domains`
attribute to exist (it is copied onto the result) and to be non-empty
(the function traps into a debugger on an empty `domains` dict before
returning); returns the `eliminated` closure. -/
def eliminate_var {V : Type} [DecidableEq V] (f : FFunc V) (var : String) :
    Option (FFunc V) :=
  if var ∈ f.argspec then
    match f.domains with
    | none => none
    | some d =>
      if d = [] then none
      else some (eliminatedBody f var d)
  else none

/-- `make_not_sum_func(product_func, keep_var)`: successively eliminate
every parameter in the original argspec except `keep_var`. -/
def make_not_sum_func {V : Type} [DecidableEq V] (product_func : FFunc V)
    (keep_var : String) : Option (FFunc V) :=
  product_func.argspec.foldlM
    (fun g a => if a = keep_var then some g else eliminate_var g a) product_func

def evidenceName : String := "evidence_func"

/-- The wrapper `FactorNode.add_evidence` installs: same `argspec` and
`domains` as the wrapped callable; evaluation returns 0 when the observed
variable's argument has a value other than `value`, and defers to the
wrapped callable otherwise.  (The Python wrapper reads
`args[pos].value` where `pos = args.index(node.name)`; since every caller
rebuilds positional argument lists from argument names, the argument at
`pos` of a well-formed call is exactly the binding entry named `vn`, and
an incomplete call leaves a placeholder there whose `.value` access
raises — embedded as `none`.) -/
def evidence_func {V : Type} [DecidableEq V] (old : FFunc V) (vn : String) (value : V) :
    FFunc V :=
  { name := evidenceName
    argspec := old.argspec
    domains := old.domains
    run := fun bnd =>
      match bnd.lookup vn with
      | none => none
      | some v => if v = value then old.run bnd else some 0 }

/-- The state a node carries beyond name, neighbours and mailbox: a
`VariableNode` has nothing else that propagation uses, a `FactorNode`
owns its active factor callable and its `cached_functions` list of
superseded callables (evidence history). -/
inductive NodeKind (V : Type) where
  | varN
  | facN (func : FFunc V) (cached_functions : List (FFunc V))

/-- A node: unique `name`, the `neighbours` list (as indices into the
graph's node list), the `received_messages` dict keyed by sender name,
and the kind-specific state. -/
structure GNode (V : Type) where
  name : String
  kind : NodeKind V
  neighbours : List Nat
  received_messages : List (String × Message V)

/-- `Node.is_leaf`: exactly one neighbour. -/
def GNode.is_leaf {V : Type} (n : GNode V) : Bool :=
  n.neighbours.length == 1

/-- The key set of a node's mailbox. -/
def GNode.mailboxKeys {V : Type} (n : GNode V) : List String :=
  n.received_messages.map Prod.fst

/-- The graph: the node list and the variable-name → domain registry. -/
structure FactorGraph (V : Type) where
  nodes : List (GNode V)
  domains : List (String × List V)

/-- The `needed_to_send[target]` count computed by `Node.get_target`:
initialised to `len(neighbours) - 1`, then for every received message and
for every occurrence of `target` in the neighbour list, decremented when
the message's source differs from `target`. -/
def needed_to_send {V : Type} (n : GNode V) (t : Nat) : Int :=
  (n.neighbours.length : Int) - 1 -
    (n.neighbours.count t : Int) *
      ((n.received_messages.filter (fun p => p.2.source != t)).length : Int)

/-- `Node.get_target`: the first neighbour whose `needed_to_send` count is
0 and whose mailbox has no entry keyed by this node's name; `none` when no
neighbour qualifies. -/
def get_target {V : Type} (g : FactorGraph V) (i : Nat) : Option Nat := do
  let n ← g.nodes[i]?
  n.neighbours.find? (fun t =>
    needed_to_send n t == 0 &&
      (match g.nodes[t]? with
       | some tn => !(tn.mailboxKeys.contains n.name)
       | none => false))

/-- Replace a node of the graph in place. -/
def updateNode {V : Type} (g : FactorGraph V) (i : Nat) (f : GNode V → GNode V) :
    FactorGraph V :=
  match g.nodes[i]? with
  | none => g
  | some n => { g with nodes := g.nodes.set i (f n) }

/-- Python dict assignment `received_messages[k] = m`: overwrite the
entry with key `k` in place when present, append otherwise. -/
def setReceived {V : Type} (n : GNode V) (k : String) (m : Message V) : GNode V :=
  { n with received_messages :=
      if n.mailboxKeys.contains k then
        n.received_messages.map (fun p => if p.1 == k then (k, m) else p)
      else n.received_messages ++ [(k, m)] }

/-- `Node.send(message)`: deliver into the destination's mailbox keyed by
the sender's name. -/
def send {V : Type} (g : FactorGraph V) (sender : Nat) (m : Message V) : FactorGraph V :=
  match g.nodes[sender]? with
  | none => g
  | some sn => updateNode g m.destination (fun tn => setReceived tn sn.name m)

/-- `node.received_messages[neighbour.name]`: fetch the message received
from the neighbour at index `nb` (`KeyError`/attribute failure is
`none`). -/
def fetchMessage {V : Type} (g : FactorGraph V) (n : GNode V) (nb : Nat) :
    Option (Message V) :=
  match g.nodes[nb]? with
  | none => none
  | some nbNode => n.received_messages.lookup nbNode.name

/-- The fetched message as `make_factor_node_message` uses it: a message
whose recorded destination is not this node (index `i`) is re-wrapped as
a fresh `VariableMessage` from that neighbour — same callable and
argspec, new headers, no `domains` attribute. -/
def fetchWrapped {V : Type} (g : FactorGraph V) (n : GNode V) (i nb : Nat) :
    Option (Message V) :=
  match fetchMessage g n nb with
  | none => none
  | some in_message =>
    if in_message.destination != i then
      some { source := nb
             destination := i
             argspec := in_message.argspec
             func := in_message.func
             domains := none }
    else some in_message

/-- `make_variable_node_message(node, target_node)`: a leaf sends the
`unity` callable; otherwise the product of the messages received from
every neighbour other than the target (a missing mailbox entry raises
`KeyError`), wrapped as a `VariableMessage`. -/
def make_variable_node_message {V : Type} [DecidableEq V] (g : FactorGraph V)
    (i t : Nat) : Option (Message V) :=
  match g.nodes[i]? with
  | none => none
  | some n =>
    if n.is_leaf then some (VariableMessage i t (unity V))
    else
      match (n.neighbours.filter (fun nb => nb != t)).mapM (fetchMessage g n) with
      | none => none
      | some msgs =>
        some (VariableMessage i t (make_product_func (msgs.map Constituent.msg)))

/-- `make_factor_node_message(node, target_node)`: a leaf wraps its own
factor summed over everything but the target's name; otherwise the factor
plus the (re-wrapped, see `fetchWrapped`) messages received from every
other neighbour are multiplied and then summed over everything but the
target's name, and wrapped as a `FactorMessage`. -/
def make_factor_node_message {V : Type} [DecidableEq V] (g : FactorGraph V)
    (i t : Nat) (func : FFunc V) : Option (Message V) :=
  match g.nodes[i]? with
  | none => none
  | some n =>
    match g.nodes[t]? with
    | none => none
    | some tn =>
      if n.is_leaf then
        match make_not_sum_func func tn.name with
        | none => none
        | some not_sum => FactorMessage i t not_sum
      else
        match (n.neighbours.filter (fun nb => nb != t)).mapM (fetchWrapped g n i) with
        | none => none
        | some msgs =>
          match make_not_sum_func
              (make_product_func (Constituent.fn func :: msgs.map Constituent.msg))
              tn.name with
          | none => none
          | some not_sum => FactorMessage i t not_sum

/-- `construct_message` of either node class: fetch the current target
(`none` propagates the crash a `None` target causes) and build the
outgoing message with the kind-specific algorithm. -/
def construct_message {V : Type} [DecidableEq V] (g : FactorGraph V) (i : Nat) :
    Option (Message V) :=
  match g.nodes[i]? with
  | none => none
  | some n =>
    match get_target g i with
    | none => none
    | some t =>
      match n.kind with
      | .varN => make_variable_node_message g i t
      | .facN func _ => make_factor_node_message g i t func

/-- `FactorGraph.get_eligible_senders`: the nodes (in node-list order)
whose `get_target` is not `None`. -/
def get_eligible_senders {V : Type} (g : FactorGraph V) : List Nat :=
  (List.range g.nodes.length).filter (fun i => (get_target g i).isSome)

/-- One iteration of the `while` loop in `FactorGraph.propagate`: every
snapshot-eligible node constructs a message against the current state and
sends it. -/
def roundStep {V : Type} [DecidableEq V] (g : FactorGraph V) : Option (FactorGraph V) :=
  (get_eligible_senders g).foldlM
    (fun g2 i =>
      match construct_message g2 i with
      | none => none
      | some m => some (send g2 i m)) g

/-- `FactorGraph.propagate`, fuelled: loop rounds until no node has an
eligible target.  `none` means the fuel ran out (or a round crashed). -/
def propagate {V : Type} [DecidableEq V] : Nat → FactorGraph V → Option (FactorGraph V)
  | 0, _ => none
  | fuel + 1, g =>
    if (get_eligible_senders g).isEmpty then some g
    else (roundStep g).bind (propagate fuel)

/-- `FactorNode.add_evidence(node, value)`: look up the observed
variable in the active callable's argspec (`args.index` raises when
absent), push the active callable at the front of `cached_functions`
(`insert(0, old_func)`), and install the filtering wrapper.  Building
the wrapper executes `evidence_func.domains = old_func.domains`, which
raises `AttributeError` when the active callable has no `domains`
attribute — so the call also fails when `func.domains` is absent. -/
def GNode.add_evidence {V : Type} [DecidableEq V] (n : GNode V) (vname : String)
    (value : V) : Option (GNode V) :=
  match n.kind with
  | .varN => none
  | .facN func cached =>
    if func.argspec.contains vname then
      match func.domains with
      | none => none
      | some _ =>
        some { n with kind := .facN (evidence_func func vname value) (func :: cached) }
    else none

/-- `FactorNode.pop_evidence`: `self.func = self.cached_functions.pop()`
— remove the LAST element of the cache list and make it the active
callable; popping an empty list raises `IndexError`. -/
def GNode.pop_evidence {V : Type} (n : GNode V) : Option (GNode V) :=
  match n.kind with
  | .varN => none
  | .facN _ cached =>
    match cached.getLast? with
    | none => none
    | some oldf => some { n with kind := .facN oldf cached.dropLast }

/-- `reset` of either node class: clear the mailbox; a `FactorNode` with
a non-empty `cached_functions` list additionally performs one
`pop_evidence`. -/
def GNode.reset {V : Type} (n : GNode V) : GNode V :=
  match n.kind with
  | .varN => { n with received_messages := [] }
  | .facN _ cached =>
    match cached.getLast? with
    | none => { n with received_messages := [] }
    | some oldf =>
      { n with received_messages := [], kind := .facN oldf cached.dropLast }

/-- `FactorGraph.reset`: reset every node. -/
def FactorGraph.reset {V : Type} (g : FactorGraph V) : FactorGraph V :=
  { g with nodes := g.nodes.map GNode.reset }

/-- The domain registry `FactorGraph.__init__` installs: the literal dict
`x1..x5 → [True, False]`, written into the constructor's body. -/
def hardcodedDomains : List (String × List Bool) :=
  [("x1", [true, false]), ("x2", [true, false]), ("x3", [true, false]),
   ("x4", [true, false]), ("x5", [true, false])]

/-- `FactorGraph.__init__(nodes)`: stores the node list and the hardcoded
domain registry; there is no registry parameter. -/
def FactorGraph.init (nodes : List (GNode Bool)) : FactorGraph Bool :=
  { nodes := nodes, domains := hardcodedDomains }

/-- Modelled from the spec: `FactorGraph(nodes, domains)` assembles the
full node set and the variable→domain registry, both taken as
constructor arguments.  Used only to compare the spec's constructor
signature with the code's. -/
def specFactorGraphInit {V : Type} (nodes : List (GNode V))
    (domains : List (String × List V)) : FactorGraph V :=
  { nodes := nodes, domains := domains }

/-- The active factor callable of a factor node. -/
def GNode.activeFunc {V : Type} (n : GNode V) : Option (FFunc V) :=
  match n.kind with
  | .varN => none
  | .facN func _ => some func

/-- The `cached_functions` evidence stack of a factor node. -/
def GNode.cachedList {V : Type} (n : GNode V) : List (FFunc V) :=
  match n.kind with
  | .varN => []
  | .facN _ cached => cached

/-- The sources recorded in a node's mailbox. -/
def senders {V : Type} (n : GNode V) : List Nat :=
  n.received_messages.map (fun p => p.2.source)

/-- Modelled from the spec: node `n` (at index `i`) is eligible to send
to neighbour `t` — `n` has received a message from every neighbour other
than `t`, and `t`'s mailbox has no entry keyed by `n`'s name.  Used to
compare the spec's eligibility rule with the code's `get_target`. -/
def EligibleTarget {V : Type} (g : FactorGraph V) (n : GNode V) (t : Nat) : Prop :=
  t ∈ n.neighbours ∧
  (∀ u ∈ n.neighbours, u ≠ t → u ∈ senders n) ∧
  (match g.nodes[t]? with
   | some tn => n.name ∉ tn.mailboxKeys
   | none => False)

/- ----------------------------------------------------------------- -/
/- Concrete fixtures used by witnesses and counterexamples.           -/
/- ----------------------------------------------------------------- -/

/-- A one-parameter base factor `fA(x1) = 1` with a registered boolean
domain for `x1`. -/
def fA1 : FFunc Bool :=
  { name := "fA"
    argspec := ["x1"]
    domains := some [("x1", [true, false])]
    run := fun _ => some 1 }

/-- A factor node owning `fA1`, with an empty evidence stack. -/
def nodeA : GNode Bool :=
  { name := "fAnode"
    kind := .facN fA1 []
    neighbours := []
    received_messages := [] }

/-- A two-parameter base factor over booleans used by the elimination
and product witnesses: value `1` at `(true, true)`, `2` at
`(true, false)`, `3` at `(false, _)`. -/
def fB2 : FFunc Bool :=
  { name := "fB"
    argspec := ["x1", "x2"]
    domains := some [("x1", [true, false]), ("x2", [true, false])]
    run := fun bnd =>
      match bnd.lookup "x1", bnd.lookup "x2" with
      | some a, some b => some (if a then (if b then 1 else 2) else 3)
      | _, _ => none }

/-- A one-parameter base factor `g(x1)`: `5` at `true`, `7` at `false`. -/
def gB1 : FFunc Bool :=
  { name := "gB"
    argspec := ["x1"]
    domains := some [("x1", [true, false])]
    run := fun bnd =>
      match bnd.lookup "x1" with
      | some a => some (if a then 5 else 7)
      | none => none }

/-- A two-parameter factor whose `domains` attribute registers `x2` but
NOT `x1`: used to exercise the missing-domain error path. -/
def fMiss : FFunc Bool :=
  { name := "fMiss"
    argspec := ["x1", "x2"]
    domains := some [("x2", [true, false])]
    run := fun _ => some 1 }

/-- A message carrying the `unity` callable (as a leaf `VariableNode`
sends). -/
def unityMsg : Message Bool := VariableMessage 1 0 (unity Bool)

/-- A message whose callable is not named `unity`: wraps `gB1`. -/
def gMsg : Message Bool := VariableMessage 1 0 gB1

/-- Mailbox fixture for the `get_target` counterexample: a message from
node 1 (named `b`) to node 0. -/
def msgFromB : Message Bool :=
  { source := 1, destination := 0, argspec := [], func := unity Bool, domains := none }

/-- Mailbox fixture: a message from node 2 (named `c`) to node 0. -/
def msgFromC : Message Bool :=
  { source := 2, destination := 0, argspec := [], func := unity Bool, domains := none }

/-- `get_target` counterexample graph, node 0: named `a`, neighbours 1
and 2, and it has already received messages from both of them. -/
def cgNode0 : GNode Bool :=
  { name := "a"
    kind := .varN
    neighbours := [1, 2]
    received_messages := [("b", msgFromB), ("c", msgFromC)] }

/-- `get_target` counterexample graph, node 1 (named `b`), empty mailbox. -/
def cgNode1 : GNode Bool :=
  { name := "b", kind := .varN, neighbours := [0], received_messages := [] }

/-- `get_target` counterexample graph, node 2 (named `c`), empty mailbox. -/
def cgNode2 : GNode Bool :=
  { name := "c", kind := .varN, neighbours := [0], received_messages := [] }

/-- The `get_target` counterexample graph: node 0 has received from both
neighbours and has delivered to neither, so both neighbours are eligible
targets simultaneously. -/
def cGraph : FactorGraph Bool :=
  { nodes := [cgNode0, cgNode1, cgNode2], domains := [] }

/-- A three-parameter factor for the star-graph counterexample. -/
def fStar : FFunc Bool :=
  { name := "fC"
    argspec := ["x1", "x2", "x3"]
    domains := some [("x1", [true, false]), ("x2", [true, false]), ("x3", [true, false])]
    run := fun _ => some 1 }

/-- Star-graph centre: a factor node with three variable neighbours. -/
def starCenter : GNode Bool :=
  { name := "fC", kind := .facN fStar [], neighbours := [1, 2, 3], received_messages := [] }

def starLeaf1 : GNode Bool :=
  { name := "x1", kind := .varN, neighbours := [0], received_messages := [] }

def starLeaf2 : GNode Bool :=
  { name := "x2", kind := .varN, neighbours := [0], received_messages := [] }

def starLeaf3 : GNode Bool :=
  { name := "x3", kind := .varN, neighbours := [0], received_messages := [] }

/-- The star factor graph `x1 - fC - x2, fC - x3`: a tree of diameter 2. -/
def starGraph : FactorGraph Bool :=
  FactorGraph.init [starCenter, starLeaf1, starLeaf2, starLeaf3]

/-- A one-parameter factor for the single-edge tree fixture. -/
def pFunc : FFunc Bool :=
  { name := "fP"
    argspec := ["x1"]
    domains := some [("x1", [true, false])]
    run := fun _ => some 1 }

/-- Factor node of the single-edge tree. -/
def pFac : GNode Bool :=
  { name := "fP", kind := .facN pFunc [], neighbours := [1], received_messages := [] }

/-- Variable node of the single-edge tree. -/
def pVar : GNode Bool :=
  { name := "x1", kind := .varN, neighbours := [0], received_messages := [] }

/-- The single-edge factor graph `fP - x1`: the smallest tree with an
edge. -/
def pGraph : FactorGraph Bool :=
  FactorGraph.init [pFac, pVar]

/- ----------------------------------------------------------------- -/
/- Definitions for the propagation-scheduler analysis (C3).           -/
/- ----------------------------------------------------------------- -/

/-- Total number of messages currently held in mailboxes. -/
def totalSent {V : Type} (g : FactorGraph V) : Nat :=
  (g.nodes.map (fun n => n.received_messages.length)).sum

/-- Total number of directed edges (sum of neighbour-list lengths). -/
def totalDeg {V : Type} (g : FactorGraph V) : Nat :=
  (g.nodes.map (fun n => n.neighbours.length)).sum

/-- Two graph states share a skeleton when they have the same node
count and per-index identical names, neighbour lists and kind state —
everything except mailboxes. -/
def Skel {V : Type} (g g2 : FactorGraph V) : Prop :=
  g2.nodes.length = g.nodes.length ∧
  ∀ i : Nat,
    (g2.nodes[i]?).map GNode.name = (g.nodes[i]?).map GNode.name ∧
    (g2.nodes[i]?).map GNode.neighbours = (g.nodes[i]?).map GNode.neighbours ∧
    (g2.nodes[i]?).map GNode.kind = (g.nodes[i]?).map GNode.kind

/-- Mailbox entries of `g` all survive, unchanged, into `g2`. -/
def entriesGrow {V : Type} (g g2 : FactorGraph V) : Prop :=
  ∀ (j : Nat) (n : GNode V) (p : String × Message V),
    g.nodes[j]? = some n → p ∈ n.received_messages →
    ∃ n2 : GNode V, g2.nodes[j]? = some n2 ∧ p ∈ n2.received_messages

/-- Static well-formedness of a factor graph: distinct node names;
valid, duplicate-free, symmetric, irreflexive neighbour lists; every
factor node's callable has a duplicate-free argspec and a non-empty
`domains` attribute. -/
structure GraphWF {V : Type} (g : FactorGraph V) : Prop where
  namesNodup : (g.nodes.map GNode.name).Nodup
  nbValid : ∀ (i : Nat) (n : GNode V), g.nodes[i]? = some n →
    ∀ t ∈ n.neighbours, t < g.nodes.length
  nbNodup : ∀ (i : Nat) (n : GNode V), g.nodes[i]? = some n → n.neighbours.Nodup
  nbSymm : ∀ (i : Nat) (n : GNode V) (t : Nat) (tn : GNode V),
    g.nodes[i]? = some n → g.nodes[t]? = some tn →
    t ∈ n.neighbours → i ∈ tn.neighbours
  nbIrrefl : ∀ (i : Nat) (n : GNode V), g.nodes[i]? = some n → i ∉ n.neighbours
  facWF : ∀ (i : Nat) (n : GNode V) (f : FFunc V) (c : List (FFunc V)),
    g.nodes[i]? = some n → n.kind = NodeKind.facN f c →
    f.argspec.Nodup ∧ ∃ d, f.domains = some d ∧ d ≠ []

/-- Dynamic mailbox invariant: every mailbox entry of node `i` was sent
by a neighbour (recorded as `source`), is addressed to `i`, and is keyed
by the sender's name; keys are duplicate-free. -/
structure MailWF {V : Type} (g : FactorGraph V) : Prop where
  keysSrc : ∀ (i : Nat) (n : GNode V) (p : String × Message V),
    g.nodes[i]? = some n → p ∈ n.received_messages →
    p.2.source ∈ n.neighbours ∧ p.2.destination = i ∧
    ∃ sn : GNode V, g.nodes[p.2.source]? = some sn ∧ sn.name = p.1
  keysNodup : ∀ (i : Nat) (n : GNode V), g.nodes[i]? = some n → n.mailboxKeys.Nodup

/-- The invariant every reachable propagation state satisfies. -/
def Inv {V : Type} (g : FactorGraph V) : Prop := GraphWF g ∧ MailWF g

/-- Node `i` has delivered a message to node `t` (there is a mailbox
entry at `t` keyed by `i`'s name). -/
def Sent {V : Type} (g : FactorGraph V) (i t : Nat) : Prop :=
  ∃ n tn : GNode V,
    g.nodes[i]? = some n ∧ g.nodes[t]? = some tn ∧ n.name ∈ tn.mailboxKeys

/-- Undirected adjacency between node indices (either side records the
other as a neighbour). -/
def adjOf {V : Type} (g : FactorGraph V) (i j : Nat) : Prop :=
  (∃ n : GNode V, g.nodes[i]? = some n ∧ j ∈ n.neighbours) ∨
  (∃ n : GNode V, g.nodes[j]? = some n ∧ i ∈ n.neighbours)

/-- The simple graph on node indices induced by the neighbour lists. -/
def toSimple {V : Type} (g : FactorGraph V) : SimpleGraph Nat :=
  { Adj := fun i j => i ≠ j ∧ adjOf g i j
    symm := by
      intro i j h
      refine ⟨fun he => h.1 he.symm, ?_⟩
      rcases h.2 with h2 | h2
      · exact Or.inr h2
      · exact Or.inl h2
    loopless := fun i h => h.1 rfl }

/-- A list has no immediate repeat when no element reappears two
positions later (the pattern `a, b, a` never occurs). -/
def NoImmediateRepeat {α : Type} : List α → Prop
  | a :: b :: c :: rest => a ≠ c ∧ NoImmediateRepeat (b :: c :: rest)
  | _ => True

/-- Whether `j` is reachable from `i` in at most `k` hops. -/
def reachIn {V : Type} (g : FactorGraph V) : Nat → Nat → Nat → Bool
  | 0, i, j => i == j
  | k + 1, i, j =>
    i == j ||
      (match g.nodes[i]? with
       | some n => n.neighbours.any (fun u => reachIn g k u j)
       | none => false)

/-- Hop distance between two node indices (`none` when unreachable
within the node count). -/
def hopDist {V : Type} (g : FactorGraph V) (i j : Nat) : Option Nat :=
  (List.range (g.nodes.length + 1)).find? (fun k => reachIn g k i j)

/-- The diameter of the graph: the largest hop distance over all node
pairs. -/
def diameter {V : Type} (g : FactorGraph V) : Nat :=
  (((List.range g.nodes.length).map (fun i =>
    (List.range g.nodes.length).map (fun j => (hopDist g i j).getD 0))).flatten).foldl
    Nat.max 0

/-- Iterate `roundStep` a fixed number of times. -/
def runRounds {V : Type} [DecidableEq V] : Nat → FactorGraph V → Option (FactorGraph V)
  | 0, g => some g
  | k + 1, g => (roundStep g).bind (runRounds k)

/- ----------------------------------------------------------------- -/
/- Shared helper lemmas.                                              -/
/- ----------------------------------------------------------------- -/

theorem mapM_eq_some_of_forall {α β : Type} (f : α → Option β) (F : α → β)
    (l : List α) (h : ∀ a ∈ l, f a = some (F a)) : l.mapM f = some (l.map F) := by
  induction l with
  | nil => rfl
  | cons a t ih =>
    rw [List.mapM_cons, h a (by simp), ih (fun b hb => h b (by simp [hb]))]
    rfl

theorem lookup_append {β : Type} (l1 l2 : List (String × β)) (k : String) :
    (l1 ++ l2).lookup k = ((l1.lookup k).orElse (fun _ => l2.lookup k)) := by
  induction l1 with
  | nil => simp [List.lookup]
  | cons h t ih =>
    simp only [List.cons_append, List.lookup]
    cases hk : (k == h.1) with
    | true => simp
    | false => simpa using ih

/-- Evidence layers are pushed by consing onto `cached_functions`; this
describes a whole successful sequence of `add_evidence` calls on an
active callable that has a `domains` attribute (each wrapper inherits
it, so every later push finds one too): the final stack is a non-empty
prefix of pushed snapshots in front of the original stack, whose last
pushed element is the factor active at the start. -/
theorem foldl_add_evidence_spec {V : Type} [DecidableEq V]
    (ops : List (String × V)) :
    ∀ (n : GNode V) (f : FFunc V) (cached : List (FFunc V)),
      n.kind = NodeKind.facN f cached →
      f.domains.isSome = true →
      (∀ p ∈ ops, p.1 ∈ f.argspec) →
      ∃ n2 f2 pre,
        ops.foldlM (fun m p => GNode.add_evidence m p.1 p.2) n = some n2 ∧
        n2.kind = NodeKind.facN f2 (pre ++ cached) ∧
        pre.length = ops.length ∧
        n2.name = n.name ∧ n2.neighbours = n.neighbours ∧
        n2.received_messages = n.received_messages ∧
        f2.argspec = f.argspec ∧
        (ops = [] → f2 = f ∧ pre = []) ∧
        (ops ≠ [] → pre.getLast? = some f) := by
  induction ops with
  | nil =>
    intro n f cached hk _ _
    exact ⟨n, f, [], rfl, by simpa using hk, rfl, rfl, rfl, rfl, rfl,
      fun _ => ⟨rfl, rfl⟩, fun h => absurd rfl h⟩
  | cons o rest ih =>
    intro n f cached hk hd hargs
    obtain ⟨d, hdd⟩ := Option.isSome_iff_exists.mp hd
    have hmem : o.1 ∈ f.argspec := hargs o (by simp)
    have hc : f.argspec.contains o.1 = true := List.elem_eq_true_of_mem hmem
    have hstep : GNode.add_evidence n o.1 o.2 =
        some { n with kind := NodeKind.facN (evidence_func f o.1 o.2) (f :: cached) } := by
      simp [GNode.add_evidence, hk, hc, hmem, hdd]
    obtain ⟨n2, f2, pre, hfold, hkind, hlen, hname, hnb, hrm, hspec, _, hlast⟩ :=
      ih { n with kind := NodeKind.facN (evidence_func f o.1 o.2) (f :: cached) }
        (evidence_func f o.1 o.2) (f :: cached) rfl
        (by simpa [evidence_func] using hd)
        (fun p hp => by
          have := hargs p (by simp [hp])
          simpa [evidence_func] using this)
    refine ⟨n2, f2, pre ++ [f], ?_, ?_, ?_, hname, hnb, hrm, ?_, ?_, ?_⟩
    · rw [List.foldlM_cons, hstep]
      exact hfold
    · simpa [List.append_assoc] using hkind
    · simp [hlen]
    · simpa [evidence_func] using hspec
    · intro h
      exact absurd h (List.cons_ne_nil o rest)
    · intro _
      simp

/- ----------------------------------------------------------------- -/
/- C9: add_evidence then pop_evidence round-trips on an empty stack.  -/
/- ----------------------------------------------------------------- -/

/-- C9: for every factor node with an empty evidence stack whose active
factor carries a `domains` attribute (reading `old_func.domains` while
building the wrapper raises otherwise) and an observed variable that is
one of the factor's parameters (as `args.index` requires),
`add_evidence` followed by `pop_evidence` restores the node exactly — in
particular the active factor is the pre-evidence factor and therefore
produces identical output on every binding. -/
theorem add_evidence_pop_evidence_roundtrip {V : Type} [DecidableEq V]
    (n : GNode V) (f0 : FFunc V) (vname : String) (value : V)
    (hk : n.kind = NodeKind.facN f0 [])
    (hd : f0.domains.isSome = true)
    (ha : vname ∈ f0.argspec) :
    (n.add_evidence vname value).bind GNode.pop_evidence = some n ∧
    ∀ bnd : Binding V, n.activeFunc.map (fun f => f.run bnd) = some (f0.run bnd) := by
  have hc : f0.argspec.contains vname = true := List.elem_eq_true_of_mem ha
  obtain ⟨d, hdd⟩ := Option.isSome_iff_exists.mp hd
  constructor
  · cases n with
    | mk nm kd nb rm =>
      simp at hk
      simp [GNode.add_evidence, hk, hc, ha, hdd, GNode.pop_evidence]
  · intro bnd
    simp [GNode.activeFunc, hk]

/-- C9 witness: the round-trip theorem applied to the concrete factor
node `nodeA` (factor `fA1`, empty evidence stack, registered boolean
domain), observing `x1 = true`. -/
theorem add_evidence_pop_evidence_roundtrip_witness :
    (nodeA.add_evidence "x1" true).bind GNode.pop_evidence = some nodeA ∧
    ∀ bnd : Binding Bool, nodeA.activeFunc.map (fun f => f.run bnd) = some (fA1.run bnd) :=
  add_evidence_pop_evidence_roundtrip nodeA fA1 "x1" true rfl rfl (by decide)

/- ----------------------------------------------------------------- -/
/- C2: the evidence stack is NOT last-in-first-out.                   -/
/- ----------------------------------------------------------------- -/

/-- C2 counterexample: push evidence `x1 = true` then `x1 = false` on
`nodeA` and pop once.  The claim says the restored factor is the one
active immediately before the second push (the `x1 = true` filter, which
yields 0 at the binding `x1 = false`); instead the restored factor is the
original `fA1` (which yields 1 there), because `add_evidence` inserts at
index 0 while `pop_evidence` pops from the end. -/
theorem pop_evidence_not_lifo_counterexample :
    ((((nodeA.add_evidence "x1" true).bind (fun m => m.add_evidence "x1" false)).bind
        GNode.pop_evidence).bind GNode.activeFunc).map
        (fun f => f.run [("x1", false)]) = some (some 1) ∧
    ((nodeA.add_evidence "x1" true).bind GNode.activeFunc).map
        (fun f => f.run [("x1", false)]) = some (some 0) :=
  ⟨rfl, rfl⟩

/-- C2 (amended): `pop_evidence` removes the LAST element of
`cached_functions`, while `add_evidence` inserts at the front; hence
after any non-empty sequence of `add_evidence` calls on a node whose
evidence stack started empty and whose active factor carries a
`domains` attribute (reading `old_func.domains` while building the
wrapper raises otherwise), a single `pop_evidence` restores the factor
that was active before the EARLIEST of those calls (the original
factor) — the stack behaves first-in-first-out, not last-in-first-out;
the two coincide only when exactly one layer is on the stack. -/
theorem pop_evidence_restores_original {V : Type} [DecidableEq V]
    (n : GNode V) (f0 : FFunc V) (ops : List (String × V))
    (hne : ops ≠ [])
    (hk : n.kind = NodeKind.facN f0 [])
    (hd : f0.domains.isSome = true)
    (hargs : ∀ p ∈ ops, p.1 ∈ f0.argspec) :
    ∃ n2 n3,
      ops.foldlM (fun m p => GNode.add_evidence m p.1 p.2) n = some n2 ∧
      n2.pop_evidence = some n3 ∧
      n3.activeFunc = some f0 := by
  obtain ⟨n2, f2, pre, hfold, hkind, hlen, _, _, _, _, _, hlast⟩ :=
    foldl_add_evidence_spec ops n f0 [] hk hd hargs
  have hgl : pre.getLast? = some f0 := hlast hne
  refine ⟨n2, { n2 with kind := NodeKind.facN f0 (pre.dropLast) }, hfold, ?_, ?_⟩
  · simp [GNode.pop_evidence, hkind, hgl]
  · simp [GNode.activeFunc]

/-- C2 witness: the amended theorem applied to `nodeA` with the two
pushes `x1 = true` then `x1 = false`. -/
theorem pop_evidence_restores_original_witness :
    ∃ n2 n3,
      ([(("x1" : String), true), ("x1", false)]).foldlM
        (fun m p => GNode.add_evidence m p.1 p.2) nodeA = some n2 ∧
      n2.pop_evidence = some n3 ∧
      n3.activeFunc = some fA1 :=
  pop_evidence_restores_original nodeA fA1 [("x1", true), ("x1", false)]
    (by decide) rfl rfl (by decide)

/- ----------------------------------------------------------------- -/
/- C1: reset clears the mailbox but pops only ONE evidence layer.     -/
/- ----------------------------------------------------------------- -/

/-- Node `reset` never touches the name or the neighbour list and always
clears the mailbox. -/
theorem reset_static_fields {V : Type} (m : GNode V) :
    (GNode.reset m).name = m.name ∧ (GNode.reset m).neighbours = m.neighbours ∧
    (GNode.reset m).received_messages = [] := by
  unfold GNode.reset
  cases hk : m.kind with
  | varN => simp
  | facN f cached =>
    cases hgl : cached.getLast? with
    | none => simp [hgl]
    | some oldf => simp [hgl]

/-- C1 counterexample: after pushing two evidence layers on `nodeA`,
`reset()` leaves one superseded factor on `cached_functions` — it pops a
single layer, not all of them as the claim states. -/
theorem reset_leaves_layer_counterexample :
    (((nodeA.add_evidence "x1" true).bind (fun m => m.add_evidence "x1" false)).map
        (fun m => (GNode.reset m).cachedList.length)) = some 1 ∧
    (((nodeA.add_evidence "x1" true).bind (fun m => m.add_evidence "x1" false)).map
        (fun m => (GNode.reset m).cachedList.length)) ≠ some 0 :=
  ⟨rfl, by decide⟩

/-- C1 (amended): after any non-empty successful sequence of
`add_evidence` calls on a factor node whose stack started empty and
whose active factor carries a `domains` attribute (reading
`old_func.domains` while building the wrapper raises otherwise),
`reset()` clears the mailbox and pops exactly ONE layer; because layers
are inserted at the front and popped from the back, that single pop does
reinstate the original unconditioned factor as the active factor, but the
remaining `ops.length - 1` intermediate snapshots stay cached (the stack
is emptied only when at most one layer was pushed).  `FactorGraph.reset`
applies node reset to every node, preserving names and neighbour lists
(topology). -/
theorem reset_spec {V : Type} [DecidableEq V]
    (n : GNode V) (f0 : FFunc V) (ops : List (String × V))
    (hne : ops ≠ [])
    (hk : n.kind = NodeKind.facN f0 [])
    (hd : f0.domains.isSome = true)
    (hargs : ∀ p ∈ ops, p.1 ∈ f0.argspec) :
    (∃ n2,
      ops.foldlM (fun m p => GNode.add_evidence m p.1 p.2) n = some n2 ∧
      (GNode.reset n2).received_messages = [] ∧
      (GNode.reset n2).activeFunc = some f0 ∧
      (GNode.reset n2).cachedList.length = ops.length - 1 ∧
      (GNode.reset n2).name = n.name ∧
      (GNode.reset n2).neighbours = n.neighbours) ∧
    ∀ (g : FactorGraph V) (i : Nat),
      (FactorGraph.reset g).nodes[i]? = (g.nodes[i]?).map GNode.reset ∧
      ((FactorGraph.reset g).nodes[i]?).map GNode.name = (g.nodes[i]?).map GNode.name ∧
      ((FactorGraph.reset g).nodes[i]?).map GNode.neighbours
        = (g.nodes[i]?).map GNode.neighbours := by
  constructor
  · obtain ⟨n2, f2, pre, hfold, hkind, hlen, hname, hnb, _, _, _, hlast⟩ :=
      foldl_add_evidence_spec ops n f0 [] hk hd hargs
    have hgl : pre.getLast? = some f0 := hlast hne
    refine ⟨n2, hfold, ?_, ?_, ?_, ?_, ?_⟩
    · exact (reset_static_fields n2).2.2
    · simp [GNode.reset, hkind, hgl, GNode.activeFunc]
    · simp [GNode.reset, hkind, hgl, GNode.cachedList, hlen]
    · rw [(reset_static_fields n2).1, hname]
    · rw [(reset_static_fields n2).2.1, hnb]
  · intro g i
    have hmap : (FactorGraph.reset g).nodes[i]? = (g.nodes[i]?).map GNode.reset := by
      simp [FactorGraph.reset]
    refine ⟨hmap, ?_, ?_⟩
    · rw [hmap]
      cases g.nodes[i]? with
      | none => rfl
      | some m => simp [(reset_static_fields m).1]
    · rw [hmap]
      cases g.nodes[i]? with
      | none => rfl
      | some m => simp [(reset_static_fields m).2.1]

/-- C1 witness: the amended reset theorem applied to `nodeA` with the
two pushes `x1 = true` then `x1 = false`. -/
theorem reset_spec_witness :
    (∃ n2,
      ([(("x1" : String), true), ("x1", false)]).foldlM
        (fun m p => GNode.add_evidence m p.1 p.2) nodeA = some n2 ∧
      (GNode.reset n2).received_messages = [] ∧
      (GNode.reset n2).activeFunc = some fA1 ∧
      (GNode.reset n2).cachedList.length = 2 - 1 ∧
      (GNode.reset n2).name = nodeA.name ∧
      (GNode.reset n2).neighbours = nodeA.neighbours) ∧
    ∀ (g : FactorGraph Bool) (i : Nat),
      (FactorGraph.reset g).nodes[i]? = (g.nodes[i]?).map GNode.reset ∧
      ((FactorGraph.reset g).nodes[i]?).map GNode.name = (g.nodes[i]?).map GNode.name ∧
      ((FactorGraph.reset g).nodes[i]?).map GNode.neighbours
        = (g.nodes[i]?).map GNode.neighbours :=
  reset_spec nodeA fA1 [("x1", true), ("x1", false)] (by decide) rfl rfl (by decide)

/- ----------------------------------------------------------------- -/
/- C8: the constructor takes no domain registry.                      -/
/- ----------------------------------------------------------------- -/

/-- C8 counterexample: a graph constructed from an empty node list (and
no registry argument — the constructor has none) nevertheless owns the
non-empty hardcoded `x1..x5` registry, so the registry is fixed
independently of the constructor's arguments, contradicting the claim
that the constructed graph owns a caller-supplied registry. -/
theorem init_ignores_registry_counterexample :
    (FactorGraph.init []).domains = hardcodedDomains ∧
    (FactorGraph.init []).domains ≠ [] :=
  ⟨rfl, by decide⟩

/-- C8 (amended): `FactorGraph.__init__` takes only the node list; the
constructed graph owns that node list, and its domain registry is always
the hardcoded `x1..x5 → [True, False]` dict — it coincides with the
spec's two-argument constructor only when the supplied registry is
exactly the hardcoded one. -/
theorem init_spec (nodes : List (GNode Bool)) :
    FactorGraph.init nodes = specFactorGraphInit nodes hardcodedDomains ∧
    (FactorGraph.init nodes).nodes = nodes ∧
    ∀ ds : List (String × List Bool),
      specFactorGraphInit nodes ds = FactorGraph.init nodes ↔ ds = hardcodedDomains := by
  refine ⟨rfl, rfl, fun ds => ⟨fun h => ?_, fun h => by rw [h]; rfl⟩⟩
  have := congrArg FactorGraph.domains h
  simpa [specFactorGraphInit, FactorGraph.init] using this

/- ----------------------------------------------------------------- -/
/- C5: make_product_func.                                             -/
/- ----------------------------------------------------------------- -/

theorem lookup_eq_some_mem {β : Type} {l : List (String × β)} {k : String} {v : β}
    (h : l.lookup k = some v) : (k, v) ∈ l := by
  induction l with
  | nil => cases h
  | cons q t ih =>
    obtain ⟨q1, q2⟩ := q
    by_cases hk : k = q1
    · subst hk
      rw [List.lookup, beq_self_eq_true] at h
      simp at h
      simp [h]
    · rw [List.lookup, beq_eq_false_iff_ne.mpr hk] at h
      exact List.mem_cons_of_mem _ (ih h)

theorem lookup_filter_of_key {β : Type} (l : List (String × β)) (k : String)
    (p : String × β → Bool) (hp : ∀ b, p (k, b) = true) :
    (l.filter p).lookup k = l.lookup k := by
  induction l with
  | nil => rfl
  | cons q t ih =>
    obtain ⟨q1, q2⟩ := q
    by_cases hk : k = q1
    · subst hk
      have := hp q2
      simp [List.filter, this, List.lookup]
    · have hbeq : (k == q1) = false := beq_eq_false_iff_ne.mpr hk
      cases hq : p (q1, q2) with
      | true => simp [List.filter, hq, List.lookup, hbeq, ih]
      | false => simp [List.filter, hq, List.lookup, hbeq, ih]

theorem lookup_dictUpdate {β : Type} (old upd : List (String × β)) (k : String) :
    (dictUpdate old upd).lookup k = ((upd.lookup k).orElse (fun _ => old.lookup k)) := by
  unfold dictUpdate
  rw [lookup_append]
  cases hu : upd.lookup k with
  | some v =>
    have hnone : (old.filter (fun p => (upd.lookup p.1).isNone)).lookup k = none := by
      cases hf : (old.filter (fun p => (upd.lookup p.1).isNone)).lookup k with
      | none => rfl
      | some w =>
        have hmem := lookup_eq_some_mem hf
        have hpw := (List.mem_filter.mp hmem).2
        rw [hu] at hpw
        simp at hpw
    simp [hnone, hu]
  | none =>
    have heq : (old.filter (fun p => (upd.lookup p.1).isNone)).lookup k = old.lookup k :=
      lookup_filter_of_key old k _ (fun b => by simp [hu])
    simp [heq, hu]

/-- Provenance of a key in the accumulated product domains: a value can
only come from a constituent's `domains` or from the accumulator. -/
theorem productDomains_lookup_some {V : Type} [DecidableEq V]
    (factors : List (Constituent V)) (k : String) (vs : List V) :
    ∀ acc, (factors.foldl domStep acc).lookup k = some vs →
      (∃ c ∈ factors, ∃ dc, c.domains = some dc ∧ dc.lookup k = some vs) ∨
        acc.lookup k = some vs := by
  induction factors with
  | nil => intro acc h; exact Or.inr h
  | cons c rest ih =>
    intro acc h
    rcases ih (domStep acc c) h with hrest | hacc
    · obtain ⟨c2, hc2, dc, hdc, hl⟩ := hrest
      exact Or.inl ⟨c2, by simp [hc2], dc, hdc, hl⟩
    · cases hd : c.domains with
      | none => rw [domStep, hd] at hacc; exact Or.inr hacc
      | some d =>
        rw [domStep, hd, lookup_dictUpdate] at hacc
        cases hu : d.lookup k with
        | some w =>
          rw [hu] at hacc
          simp at hacc
          exact Or.inl ⟨c, by simp, d, hd, by rw [hu, hacc]⟩
        | none =>
          rw [hu] at hacc
          simp at hacc
          exact Or.inr hacc

/-- A key present in the accumulator survives the whole domains fold. -/
theorem productDomains_isSome_mono {V : Type} [DecidableEq V]
    (factors : List (Constituent V)) (k : String) :
    ∀ acc, (acc.lookup k).isSome = true →
      ((factors.foldl domStep acc).lookup k).isSome = true := by
  induction factors with
  | nil => intro acc h; exact h
  | cons c rest ih =>
    intro acc h
    refine ih (domStep acc c) ?_
    cases hd : c.domains with
    | none => rw [domStep, hd]; exact h
    | some d =>
      rw [domStep, hd, lookup_dictUpdate]
      cases hu : d.lookup k with
      | some w => simp [hu]
      | none => simpa [hu] using h

/-- A key registered by any constituent is present in the accumulated
product domains. -/
theorem productDomains_isSome_of_mem {V : Type} [DecidableEq V]
    (factors : List (Constituent V)) (k : String) (c : Constituent V)
    (dc : List (String × List V)) (hc : c ∈ factors) (hdc : c.domains = some dc)
    (hk : (dc.lookup k).isSome = true) :
    ∀ acc, ((factors.foldl domStep acc).lookup k).isSome = true := by
  induction factors with
  | nil => cases hc
  | cons c2 rest ih =>
    intro acc
    rcases List.mem_cons.mp hc with hc2 | hcr
    · subst hc2
      refine productDomains_isSome_mono rest k (domStep acc c) ?_
      rw [domStep, hdc, lookup_dictUpdate]
      cases hu : dc.lookup k with
      | some w => simp [hu]
      | none => rw [hu] at hk; simp at hk
    · exact ih hcr (domStep acc c2)

/-- C5: the factor built by `make_product_func` has (i) a duplicate-free
parameter list holding exactly the union of the constituents' parameter
lists, (ii) a `domains` attribute holding exactly the union of the
constituents' domain maps (every value it holds is some constituent's
registered domain, and every constituent-registered name is present),
(iii) an evaluation that multiplies each constituent's result on the
subset of the binding matching that constituent's own declared
parameters, a zero-parameter constituent (such as a `unity` message)
being invoked with the single placeholder argument and contributing 1;
in particular (iv) for factors `f(x)` and `g(x, y)` the product at any
binding of `x, y` equals `f(x) * g(x, y)`. -/
theorem make_product_func_spec {V : Type} [DecidableEq V]
    (factors : List (Constituent V)) :
    (make_product_func factors).argspec.Nodup ∧
    (∀ a, a ∈ (make_product_func factors).argspec ↔ ∃ c ∈ factors, a ∈ c.argspec) ∧
    ((make_product_func factors).domains = some (productDomains factors) ∧
      ∀ k : String,
        (((productDomains factors).lookup k).isSome = true ↔
          ∃ c ∈ factors, ∃ dc, c.domains = some dc ∧ (dc.lookup k).isSome = true) ∧
        (∀ vs, (productDomains factors).lookup k = some vs →
          ∃ c ∈ factors, ∃ dc, c.domains = some dc ∧ dc.lookup k = some vs)) ∧
    (∀ (bnd : Binding V) (R : Constituent V → ℚ),
      (∀ c ∈ factors, c.invoke (c.callArgs bnd) = some (R c)) →
      (make_product_func factors).run bnd = some (factors.map R).prod) ∧
    (∀ (m : Message V) (bnd : Binding V), m.argspec = [] → m.func.name = unityName →
      (Constituent.msg m).invoke ((Constituent.msg m).callArgs bnd) = some 1) ∧
    (∀ (f g : FFunc V) (x y : String) (vx vy : V) (rf rg : ℚ),
      f.argspec = [x] → g.argspec = [x, y] → y ≠ x →
      f.run [(x, vx)] = some rf → g.run [(x, vx), (y, vy)] = some rg →
      (make_product_func [Constituent.fn f, Constituent.fn g]).run [(x, vx), (y, vy)] =
        some (rf * rg)) := by
  refine ⟨List.nodup_dedup _, fun a => ?_, ⟨rfl, fun k => ⟨⟨fun h => ?_, fun h => ?_⟩, fun vs h => ?_⟩⟩, fun bnd R h => ?_, fun m bnd hargs hname => ?_, fun f g x y vx vy rf rg hf hg hyx hrf hrg => ?_⟩
  · simp only [make_product_func, List.mem_dedup, List.mem_flatten, List.mem_map]
    constructor
    · rintro ⟨l, ⟨c, hc, rfl⟩, hal⟩
      exact ⟨c, hc, hal⟩
    · rintro ⟨c, hc, hal⟩
      exact ⟨c.argspec, ⟨c, hc, rfl⟩, hal⟩
  · obtain ⟨vs, hvs⟩ := Option.isSome_iff_exists.mp h
    rcases productDomains_lookup_some factors k vs [] hvs with hp | hacc
    · obtain ⟨c, hc, dc, hdc, hl⟩ := hp
      exact ⟨c, hc, dc, hdc, by simp [hl]⟩
    · simp [List.lookup] at hacc
  · obtain ⟨c, hc, dc, hdc, hk⟩ := h
    exact productDomains_isSome_of_mem factors k c dc hc hdc hk []
  · rcases productDomains_lookup_some factors k vs [] h with hp | hacc
    · exact hp
    · simp [List.lookup] at hacc
  · show ((factors.mapM (fun c => Constituent.invoke c (Constituent.callArgs c bnd))).map
        List.prod) = some (factors.map R).prod
    rw [mapM_eq_some_of_forall (fun c => Constituent.invoke c (Constituent.callArgs c bnd))
      R factors h]
    rfl
  · simp [Constituent.invoke, Constituent.callArgs, Constituent.argspec, hargs,
      Message.call, hname]
  · have hbx : (x == x) = true := beq_self_eq_true x
    have hby : (y == x) = false := beq_eq_false_iff_ne.mpr hyx
    show ((([Constituent.fn f, Constituent.fn g]).mapM
        (fun c => Constituent.invoke c (Constituent.callArgs c [(x, vx), (y, vy)]))).map
        List.prod) = some (rf * rg)
    have hc1 : Constituent.callArgs (Constituent.fn f) [(x, vx), (y, vy)] = [(x, vx)] := by
      simp [Constituent.callArgs, Constituent.argspec, hf, List.lookup, hbx]
    have hc2 : Constituent.callArgs (Constituent.fn g) [(x, vx), (y, vy)] =
        [(x, vx), (y, vy)] := by
      simp [Constituent.callArgs, Constituent.argspec, hg, List.lookup, hbx, hby]
    rw [List.mapM_cons, List.mapM_cons, List.mapM_nil]
    rw [hc1, hc2]
    simp [Constituent.invoke, hrf, hrg, mul_one]

/- ----------------------------------------------------------------- -/
/- C7: eliminating a variable with no registered domain errors out.   -/
/- ----------------------------------------------------------------- -/

/-- C7: for a factor whose parameter `x` has NO entry in its (non-empty)
domain registry, `eliminate_var f x` yields a function every evaluation
of which raises (`f.domains[var]` raises `KeyError` as soon as the
summation begins) — inference never proceeds silently with a wrong
number. -/
theorem eliminate_var_no_domain_error {V : Type} [DecidableEq V]
    (f : FFunc V) (x : String) (d : List (String × List V))
    (hx : x ∈ f.argspec)
    (hd : f.domains = some d) (hdne : d ≠ [])
    (hmiss : d.lookup x = none) :
    ∃ g, eliminate_var f x = some g ∧ ∀ bnd : Binding V, g.run bnd = none := by
  have hg : eliminate_var f x = some (eliminatedBody f x d) := by
    simp [eliminate_var, hx, hd, hdne]
  refine ⟨_, hg, fun bnd => ?_⟩
  by_cases hall : (bnd.all (fun p => f.argspec.contains p.1)) = true
  · simp only [eliminatedBody]
    rw [if_pos hall, hmiss]
  · simp only [eliminatedBody]
    rw [if_neg hall]

/-- C7 witness: the missing-domain theorem applied to the concrete factor
`fMiss(x1, x2)` whose registry lacks `x1`. -/
theorem eliminate_var_no_domain_error_witness :
    ∃ g, eliminate_var fMiss "x1" = some g ∧ ∀ bnd : Binding Bool, g.run bnd = none :=
  eliminate_var_no_domain_error fMiss "x1" [("x2", [true, false])]
    (by decide) rfl (by decide) (by decide)

/- ----------------------------------------------------------------- -/
/- C4: eliminate_var sums the factor over the eliminated variable.    -/
/- ----------------------------------------------------------------- -/

/-- C4: for a factor `f` whose parameter `x` carries the registered
domain `vals`, `eliminate_var f x` returns a factor whose parameter list
is `f`'s with `x` removed, and whose value at any binding of the
remaining parameters is the sum, over every `v` in `vals`, of `f` at
that binding extended with `x` bound to `v`. -/
theorem eliminate_var_spec {V : Type} [DecidableEq V]
    (f : FFunc V) (x : String) (d : List (String × List V)) (vals : List V)
    (hx : x ∈ f.argspec)
    (hd : f.domains = some d) (hdne : d ≠ [])
    (hdom : d.lookup x = some vals) :
    ∃ g, eliminate_var f x = some g ∧
      g.argspec = f.argspec.erase x ∧
      g.domains = some d ∧
      ∀ (bnd : Binding V) (F : V → ℚ),
        (∀ p ∈ bnd, p.1 ∈ f.argspec) →
        (∀ p ∈ bnd, p.1 ≠ x) →
        (∀ v ∈ vals, f.run ((x, v) :: bnd) = some (F v)) →
        g.run bnd = some (vals.map F).sum := by
  have hg : eliminate_var f x = some (eliminatedBody f x d) := by
    simp [eliminate_var, hx, hd, hdne]
  refine ⟨_, hg, rfl, rfl, ?_⟩
  intro bnd F hcov hnx hpt
  have hall : (bnd.all (fun p => f.argspec.contains p.1)) = true :=
    List.all_eq_true.mpr (fun p hp => List.elem_eq_true_of_mem (hcov p hp))
  have hfilt : bnd.filter (fun p => p.1 != x) = bnd :=
    List.filter_eq_self.mpr (fun p hp => bne_iff_ne.mpr (hnx p hp))
  simp only [eliminatedBody, hall, if_true, hdom, hfilt]
  rw [mapM_eq_some_of_forall (fun v => f.run ((x, v) :: bnd)) F vals hpt]
  rfl

/-- C4 witness: eliminating `x2` from the concrete two-parameter factor
`fB2` at the binding `x1 = true`: the result is
`fB2(true, true) + fB2(true, false) = 1 + 2`. -/
theorem eliminate_var_spec_witness :
    ∃ g, eliminate_var fB2 "x2" = some g ∧
      g.argspec = fB2.argspec.erase "x2" ∧
      g.domains = some [("x1", [true, false]), ("x2", [true, false])] ∧
      ∀ (bnd : Binding Bool) (F : Bool → ℚ),
        (∀ p ∈ bnd, p.1 ∈ fB2.argspec) →
        (∀ p ∈ bnd, p.1 ≠ "x2") →
        (∀ v ∈ [true, false], fB2.run (("x2", v) :: bnd) = some (F v)) →
        g.run bnd = some ([true, false].map F).sum :=
  eliminate_var_spec fB2 "x2" [("x1", [true, false]), ("x2", [true, false])]
    [true, false] (by decide) rfl (by decide) (by decide)

/- ----------------------------------------------------------------- -/
/- C10: Message.__call__.                                             -/
/- ----------------------------------------------------------------- -/

/-- C10: evaluating a Message whose underlying callable is named `unity`
returns 1 for every argument, with no check of the argument at all;
evaluating any other Message asserts that its argument is a VariableNode
before invoking the callable — a non-VariableNode argument (such as the
placeholder string) makes the assertion fail and the callable is never
invoked, while a VariableNode argument is passed through to the
callable.  The message a leaf VariableNode sends carries exactly the
`unity` callable. -/
theorem message_call_spec {V : Type} [DecidableEq V] :
    (∀ (m : Message V) (arg : PyArg V), m.func.name = unityName → m.call arg = some 1) ∧
    (∀ m : Message V, m.func.name ≠ unityName →
      (∀ s, m.call (PyArg.strArg s) = none) ∧
      (∀ nm v, m.call (PyArg.varNode nm v) = m.func.run [(nm, v)])) ∧
    (∀ (g : FactorGraph V) (i t : Nat) (n : GNode V),
      g.nodes[i]? = some n → n.is_leaf = true →
      make_variable_node_message g i t = some (VariableMessage i t (unity V)) ∧
      (VariableMessage i t (unity V)).func.name = unityName) := by
  refine ⟨fun m arg h => ?_, fun m h => ⟨fun s => ?_, fun nm v => ?_⟩,
    fun g i t n hn hleaf => ⟨?_, rfl⟩⟩
  · simp [Message.call, h]
  · simp [Message.call, h]
  · simp [Message.call, h]
  · simp [make_variable_node_message, hn, hleaf]

/- ----------------------------------------------------------------- -/
/- C6: get_target.                                                    -/
/- ----------------------------------------------------------------- -/

/-- C6 counterexample: in `cGraph`, node 0 (two neighbours, messages
received from both, delivered to neither) has BOTH neighbours satisfying
the claim's eligibility condition, but `get_target` returns only
neighbour 1 — so "returns a neighbor T if and only if T is eligible"
fails in the direction eligible → returned for neighbour 2. -/
theorem get_target_iff_counterexample :
    get_target cGraph 0 = some 1 ∧
    (2 ∈ cgNode0.neighbours ∧
      (∀ u ∈ cgNode0.neighbours, u ≠ 2 → u ∈ senders cgNode0) ∧
      ("a" : String) ∉ cgNode2.mailboxKeys) ∧
    get_target cGraph 0 ≠ some 2 := by
  refine ⟨by decide, ⟨by decide, by decide, by decide⟩, by decide⟩

theorem needed_to_send_eq_zero_iff {V : Type} (n : GNode V) (t : Nat)
    (ht : t ∈ n.neighbours) (hnd : n.neighbours.Nodup)
    (hsend : ∀ p ∈ n.received_messages, p.2.source ∈ n.neighbours)
    (hdist : (senders n).Nodup) :
    needed_to_send n t = 0 ↔ (∀ u ∈ n.neighbours, u ≠ t → u ∈ senders n) := by
  have hct : n.neighbours.count t = 1 := List.count_eq_one_of_mem hnd ht
  have hfl : (n.received_messages.filter (fun p => p.2.source != t)).length
      = ((senders n).filter (fun s => s != t)).length := by
    unfold senders
    rw [← List.countP_eq_length_filter, ← List.countP_eq_length_filter, List.countP_map]
    rfl
  have hsnd : ((senders n).filter (fun s => s != t)).Nodup := hdist.filter _
  have hcard : ((senders n).filter (fun s => s != t)).toFinset.card
      = ((senders n).filter (fun s => s != t)).length := List.toFinset_card_of_nodup hsnd
  have hncard : n.neighbours.toFinset.card = n.neighbours.length :=
    List.toFinset_card_of_nodup hnd
  have hsub : ((senders n).filter (fun s => s != t)).toFinset ⊆
      n.neighbours.toFinset.erase t := by
    intro u hu
    rw [List.mem_toFinset, List.mem_filter] at hu
    obtain ⟨hus, hut⟩ := hu
    rw [Finset.mem_erase, List.mem_toFinset]
    refine ⟨bne_iff_ne.mp hut, ?_⟩
    obtain ⟨p, hp, rfl⟩ := List.mem_map.mp hus
    exact hsend p hp
  have hecard : (n.neighbours.toFinset.erase t).card = n.neighbours.length - 1 := by
    rw [Finset.card_erase_of_mem (List.mem_toFinset.mpr ht), hncard]
  constructor
  · intro h0 u hu hut
    unfold needed_to_send at h0
    rw [hct, hfl] at h0
    by_contra hus
    have hsubu : ((senders n).filter (fun s => s != t)).toFinset ⊆
        (n.neighbours.toFinset.erase t).erase u := by
      intro w hw
      rw [Finset.mem_erase]
      refine ⟨?_, hsub hw⟩
      rintro rfl
      rw [List.mem_toFinset, List.mem_filter] at hw
      obtain ⟨hws, _⟩ := hw
      exact hus hws
    have hc2 := Finset.card_le_card hsubu
    have humem : u ∈ n.neighbours.toFinset.erase t := by
      rw [Finset.mem_erase, List.mem_toFinset]
      exact ⟨hut, hu⟩
    rw [Finset.card_erase_of_mem humem, hecard, hcard] at hc2
    have hpos : 0 < (n.neighbours.toFinset.erase t).card := Finset.card_pos.mpr ⟨u, humem⟩
    rw [hecard] at hpos
    omega
  · intro hcov
    have hsup : n.neighbours.toFinset.erase t ⊆
        ((senders n).filter (fun s => s != t)).toFinset := by
      intro u hu
      rw [Finset.mem_erase, List.mem_toFinset] at hu
      obtain ⟨hut, hun⟩ := hu
      rw [List.mem_toFinset, List.mem_filter]
      exact ⟨hcov u hun hut, bne_iff_ne.mpr hut⟩
    have heq := Finset.Subset.antisymm hsub hsup
    have := congrArg Finset.card heq
    rw [hcard, hecard] at this
    unfold needed_to_send
    rw [hct, hfl, this]
    have hlen : 0 < n.neighbours.length := List.length_pos_of_mem ht
    omega

/-- The eligibility test inside `get_target`, as one Boolean. -/
theorem get_target_pred_iff {V : Type} (g : FactorGraph V) (n : GNode V) (t : Nat)
    (ht : t ∈ n.neighbours) (hnd : n.neighbours.Nodup)
    (hsend : ∀ p ∈ n.received_messages, p.2.source ∈ n.neighbours)
    (hdist : (senders n).Nodup) :
    ((needed_to_send n t == 0) &&
      (match g.nodes[t]? with
       | some tn => !(tn.mailboxKeys.contains n.name)
       | none => false)) = true ↔ EligibleTarget g n t := by
  rw [Bool.and_eq_true, beq_iff_eq]
  unfold EligibleTarget
  rw [needed_to_send_eq_zero_iff n t ht hnd hsend hdist]
  cases hnt : g.nodes[t]? with
  | none => simp [ht]
  | some tn =>
    simp only [Bool.not_eq_true']
    constructor
    · rintro ⟨hcov, hcon⟩
      refine ⟨ht, hcov, fun hmem => ?_⟩
      simp at hcon
      exact hcon hmem
    · rintro ⟨_, hcov, hmail⟩
      refine ⟨hcov, ?_⟩
      cases hcon : tn.mailboxKeys.contains n.name with
      | false => rfl
      | true => exact absurd (List.mem_of_elem_eq_true hcon) hmail

/-- C6 (amended): `get_target` returns only eligible neighbours — a
returned target T has received messages recorded from every neighbour
other than T and T's mailbox has no entry keyed by this node's name —
and it returns the `None` sentinel exactly when no neighbour is
eligible (never an error); which eligible neighbour is returned when
several qualify is an implementation detail (the first in iteration
order).  A leaf node with an empty mailbox whose sole neighbour has not
heard from it is eligible immediately, and `get_target` returns that
sole neighbour.  (Hypotheses: the node's neighbour list is
duplicate-free and every mailbox entry was sent by a neighbour, distinct
entries from distinct neighbours — invariants of every reachable
propagation state.) -/
theorem get_target_spec {V : Type} (g : FactorGraph V) (i : Nat) (n : GNode V)
    (hn : g.nodes[i]? = some n) (hnd : n.neighbours.Nodup)
    (hsend : ∀ p ∈ n.received_messages, p.2.source ∈ n.neighbours)
    (hdist : (senders n).Nodup) :
    (∀ t, get_target g i = some t → EligibleTarget g n t) ∧
    (get_target g i = none ↔ ∀ t ∈ n.neighbours, ¬ EligibleTarget g n t) ∧
    (∀ t0 tn, n.neighbours = [t0] → n.received_messages = [] →
      g.nodes[t0]? = some tn → n.name ∉ tn.mailboxKeys → get_target g i = some t0) := by
  have hunf : get_target g i = n.neighbours.find? (fun t =>
      (needed_to_send n t == 0) &&
      (match g.nodes[t]? with
       | some tn => !(tn.mailboxKeys.contains n.name)
       | none => false)) := by
    simp [get_target, hn]
  refine ⟨fun t hfind => ?_, ⟨fun hnone t htm hel => ?_, fun hall => ?_⟩,
    fun t0 tn hnb hrm hnt hmail => ?_⟩
  · rw [hunf] at hfind
    have htm := List.mem_of_find?_eq_some hfind
    have hp := List.find?_some hfind
    exact (get_target_pred_iff g n t htm hnd hsend hdist).mp hp
  · rw [hunf] at hnone
    have := List.find?_eq_none.mp hnone t htm
    exact this ((get_target_pred_iff g n t htm hnd hsend hdist).mpr hel)
  · rw [hunf]
    refine List.find?_eq_none.mpr (fun t htm hp => ?_)
    exact hall t htm ((get_target_pred_iff g n t htm hnd hsend hdist).mp hp)
  · rw [hunf, hnb]
    have hneed : needed_to_send n t0 = 0 := by
      unfold needed_to_send
      rw [hrm, hnb]
      simp
    have hcon : (tn.mailboxKeys.contains n.name) = false := by
      cases hcon : tn.mailboxKeys.contains n.name with
      | false => rfl
      | true => exact absurd (List.mem_of_elem_eq_true hcon) hmail
    simp [List.find?, hneed, hnt, hcon, hmail]

/-- C6 witness: the amended `get_target` theorem applied to node 0 of the
concrete graph `cGraph`. -/
theorem get_target_spec_witness :
    (∀ t, get_target cGraph 0 = some t → EligibleTarget cGraph cgNode0 t) ∧
    (get_target cGraph 0 = none ↔ ∀ t ∈ cgNode0.neighbours, ¬ EligibleTarget cGraph cgNode0 t) ∧
    (∀ t0 tn, cgNode0.neighbours = [t0] → cgNode0.received_messages = [] →
      cGraph.nodes[t0]? = some tn → cgNode0.name ∉ tn.mailboxKeys →
      get_target cGraph 0 = some t0) :=
  get_target_spec cGraph 0 cgNode0 rfl (by decide) (by decide) (by decide)

/- ----------------------------------------------------------------- -/
/- C3 stage A: generic list helpers.                                  -/
/- ----------------------------------------------------------------- -/

theorem mapM_isSome_of_forall {α β : Type} (f : α → Option β) (l : List α)
    (h : ∀ a ∈ l, (f a).isSome = true) : ∃ r, l.mapM f = some r := by
  induction l with
  | nil => exact ⟨[], rfl⟩
  | cons a t ih =>
    obtain ⟨b, hb⟩ := Option.isSome_iff_exists.mp (h a (by simp))
    obtain ⟨r, hr⟩ := ih (fun x hx => h x (by simp [hx]))
    exact ⟨b :: r, by rw [List.mapM_cons, hb, hr]; rfl⟩

theorem lookup_isSome_of_mem_keys {β : Type} (l : List (String × β)) (k : String)
    (h : k ∈ l.map Prod.fst) : (l.lookup k).isSome = true := by
  induction l with
  | nil => simp at h
  | cons q t ih =>
    obtain ⟨q1, q2⟩ := q
    by_cases hk : k = q1
    · subst hk
      simp [List.lookup]
    · rw [List.lookup, beq_eq_false_iff_ne.mpr hk]
      refine ih ?_
      simp at h
      rcases h with h | h
      · exact absurd h hk
      · simpa using h

theorem nodup_map_transfer {α β γ : Type} (f : α → β) (s : α → γ) :
    ∀ l : List α, (l.map f).Nodup →
      (∀ p ∈ l, ∀ q ∈ l, s p = s q → f p = f q) → (l.map s).Nodup := by
  intro l
  induction l with
  | nil => intro _ _; simp
  | cons a t ih =>
    intro hnd hc
    simp only [List.map_cons, List.nodup_cons] at hnd ⊢
    refine ⟨?_, ih hnd.2 (fun p hp q hq h => hc p (by simp [hp]) q (by simp [hq]) h)⟩
    intro hmem
    obtain ⟨b, hb, hsb⟩ := List.mem_map.mp hmem
    exact hnd.1 (List.mem_map.mpr ⟨b, hb, hc b (by simp [hb]) a (by simp) hsb⟩)

theorem sum_map_set_add_one {α : Type} (f : α → Nat) :
    ∀ (l : List α) (t : Nat) (y x : α), l[t]? = some y → f x = f y + 1 →
      ((l.set t x).map f).sum = (l.map f).sum + 1 := by
  intro l
  induction l with
  | nil => intro t y x h _; cases h
  | cons a r ih =>
    intro t y x h hf
    cases t with
    | zero =>
      simp only [List.getElem?_cons_zero, Option.some.injEq] at h
      subst h
      simp [List.set, hf]
      omega
    | succ t2 =>
      simp only [List.getElem?_cons_succ] at h
      have hr := ih t2 y x h hf
      simp only [List.set, List.map_cons, List.sum_cons, hr]
      omega

theorem getElem?_some_lt {α : Type} {l : List α} {i : Nat} {x : α}
    (h : l[i]? = some x) : i < l.length := by
  by_contra hh
  rw [List.getElem?_eq_none (by omega)] at h
  cases h

/- ----------------------------------------------------------------- -/
/- C3 stage B: facts derived from the invariant.                      -/
/- ----------------------------------------------------------------- -/

theorem name_inj {V : Type} (g : FactorGraph V) (wf : GraphWF g) (i j : Nat)
    (ni nj : GNode V) (hi : g.nodes[i]? = some ni) (hj : g.nodes[j]? = some nj)
    (hname : ni.name = nj.name) : i = j := by
  have h1 : (g.nodes.map GNode.name)[i]? = some ni.name := by
    rw [List.getElem?_map, hi]; rfl
  have h2 : (g.nodes.map GNode.name)[j]? = some ni.name := by
    rw [List.getElem?_map, hj, hname]; rfl
  have hlt : i < (g.nodes.map GNode.name).length := getElem?_some_lt h1
  exact List.getElem?_inj hlt wf.namesNodup (h1.trans h2.symm)

theorem senders_sub {V : Type} (g : FactorGraph V) (mw : MailWF g) (i : Nat)
    (n : GNode V) (hn : g.nodes[i]? = some n) :
    ∀ p ∈ n.received_messages, p.2.source ∈ n.neighbours :=
  fun p hp => (mw.keysSrc i n p hn hp).1

theorem senders_nodup {V : Type} (g : FactorGraph V) (mw : MailWF g) (i : Nat)
    (n : GNode V) (hn : g.nodes[i]? = some n) : (senders n).Nodup := by
  have hkeys : (n.received_messages.map Prod.fst).Nodup := mw.keysNodup i n hn
  refine nodup_map_transfer Prod.fst (fun p => p.2.source) n.received_messages hkeys ?_
  intro p hp q hq hsrc
  obtain ⟨_, _, sp, hsp, hsp1⟩ := mw.keysSrc i n p hn hp
  obtain ⟨_, _, sq, hsq, hsq1⟩ := mw.keysSrc i n q hn hq
  have hsrc2 : p.2.source = q.2.source := hsrc
  rw [hsrc2] at hsp
  rw [hsp] at hsq
  injection hsq with he
  subst he
  rw [← hsp1, ← hsq1]

theorem mem_keys_of_mem_senders {V : Type} (g : FactorGraph V) (mw : MailWF g)
    (i : Nat) (n : GNode V) (u : Nat) (un : GNode V)
    (hn : g.nodes[i]? = some n) (hun : g.nodes[u]? = some un)
    (hu : u ∈ senders n) : un.name ∈ n.mailboxKeys := by
  obtain ⟨p, hp, hpu⟩ := List.mem_map.mp hu
  obtain ⟨_, _, sn, hsn, hsn1⟩ := mw.keysSrc i n p hn hp
  have hpu2 : p.2.source = u := hpu
  rw [hpu2] at hsn
  rw [hun] at hsn
  injection hsn with he
  subst he
  show un.name ∈ n.received_messages.map Prod.fst
  exact List.mem_map.mpr ⟨p, hp, hsn1.symm⟩

theorem mem_senders_of_mem_keys {V : Type} (g : FactorGraph V) (wf : GraphWF g)
    (mw : MailWF g) (i : Nat) (n : GNode V) (u : Nat) (un : GNode V)
    (hn : g.nodes[i]? = some n) (hun : g.nodes[u]? = some un)
    (hk : un.name ∈ n.mailboxKeys) : u ∈ senders n := by
  simp only [GNode.mailboxKeys] at hk
  obtain ⟨p, hp, hpk⟩ := List.mem_map.mp hk
  obtain ⟨_, _, sn, hsn, hsn1⟩ := mw.keysSrc i n p hn hp
  have : sn.name = un.name := by rw [hsn1, hpk]
  have hsrc : p.2.source = u := name_inj g wf p.2.source u sn un hsn hun this
  show u ∈ n.received_messages.map (fun p => p.2.source)
  exact List.mem_map.mpr ⟨p, hp, hsrc⟩

theorem received_length_le {V : Type} (g : FactorGraph V) (_wf : GraphWF g)
    (mw : MailWF g) (i : Nat) (n : GNode V) (hn : g.nodes[i]? = some n) :
    n.received_messages.length ≤ n.neighbours.length := by
  have h1 : n.received_messages.length = (senders n).length := by
    simp [senders]
  have hnd := senders_nodup g mw i n hn
  have hsub : (senders n).toFinset ⊆ n.neighbours.toFinset := by
    intro u hu
    rw [List.mem_toFinset] at hu ⊢
    obtain ⟨p, hp, hpu⟩ := List.mem_map.mp hu
    rw [← hpu]
    exact senders_sub g mw i n hn p hp
  calc n.received_messages.length = (senders n).length := h1
    _ = (senders n).toFinset.card := (List.toFinset_card_of_nodup hnd).symm
    _ ≤ n.neighbours.toFinset.card := Finset.card_le_card hsub
    _ ≤ n.neighbours.length := n.neighbours.toFinset_card_le

theorem totalSent_le_totalDeg {V : Type} (g : FactorGraph V) (wf : GraphWF g)
    (mw : MailWF g) : totalSent g ≤ totalDeg g := by
  unfold totalSent totalDeg
  refine List.sum_le_sum ?_
  intro n hnm
  obtain ⟨i, hlt, hget⟩ := List.getElem_of_mem hnm
  have hn : g.nodes[i]? = some n := by rw [List.getElem?_eq_getElem hlt, hget]
  exact received_length_le g wf mw i n hn

/- ----------------------------------------------------------------- -/
/- C3 stage C: message construction never crashes.                    -/
/- ----------------------------------------------------------------- -/

theorem eliminate_var_eq_some {V : Type} [DecidableEq V] (f : FFunc V) (a : String)
    (d : List (String × List V)) (ha : a ∈ f.argspec) (hd : f.domains = some d)
    (hdne : d ≠ []) : eliminate_var f a = some (eliminatedBody f a d) := by
  simp [eliminate_var, ha, hd, hdne]

theorem elim_fold_isSome {V : Type} [DecidableEq V] (keep : String)
    (d : List (String × List V)) (hdne : d ≠ []) :
    ∀ l : List String, l.Nodup → ∀ acc : FFunc V, acc.domains = some d →
      (∀ a ∈ l, a ∈ acc.argspec) →
      ∃ gg, l.foldlM (fun g a => if a = keep then some g else eliminate_var g a) acc
          = some gg ∧ gg.domains = some d := by
  intro l
  induction l with
  | nil => intro _ acc hacc _; exact ⟨acc, rfl, hacc⟩
  | cons a rest ih =>
    intro hnd acc hacc hmem
    by_cases hak : a = keep
    · obtain ⟨gg, hgg, hggd⟩ :=
        ih hnd.of_cons acc hacc (fun b hb => hmem b (by simp [hb]))
      refine ⟨gg, ?_, hggd⟩
      rw [List.foldlM_cons, if_pos hak]
      exact hgg
    · have ha : a ∈ acc.argspec := hmem a (by simp)
      have hrest : ∀ b ∈ rest, b ∈ (eliminatedBody acc a d).argspec := by
        intro b hb
        have hbne : b ≠ a := by
          intro he
          subst he
          exact (List.nodup_cons.mp hnd).1 hb
        have hbm : b ∈ acc.argspec := hmem b (by simp [hb])
        show b ∈ acc.argspec.erase a
        exact (List.mem_erase_of_ne hbne).mpr hbm
      obtain ⟨gg, hgg, hggd⟩ := ih hnd.of_cons (eliminatedBody acc a d) rfl hrest
      refine ⟨gg, ?_, hggd⟩
      rw [List.foldlM_cons, if_neg hak, eliminate_var_eq_some acc a d ha hacc hdne]
      exact hgg

theorem make_not_sum_func_isSome {V : Type} [DecidableEq V] (f : FFunc V)
    (keep : String) (hnd : f.argspec.Nodup) (d : List (String × List V))
    (hd : f.domains = some d) (hdne : d ≠ []) :
    ∃ gg, make_not_sum_func f keep = some gg ∧ gg.domains = some d := by
  unfold make_not_sum_func
  exact elim_fold_isSome keep d hdne f.argspec hnd f hd (fun a ha => ha)

theorem productDomains_ne_nil {V : Type} [DecidableEq V]
    (factors : List (Constituent V)) (c : Constituent V) (hc : c ∈ factors)
    (dc : List (String × List V)) (hdc : c.domains = some dc) (hne : dc ≠ []) :
    productDomains factors ≠ [] := by
  cases dc with
  | nil => exact absurd rfl hne
  | cons p rest =>
    have hk : ((p :: rest).lookup p.1).isSome = true := by
      simp [List.lookup]
    have := productDomains_isSome_of_mem factors p.1 c (p :: rest) hc hdc hk []
    intro hempty
    rw [productDomains] at hempty
    rw [hempty] at this
    simp [List.lookup] at this

theorem lookup_received_isSome {V : Type} (g : FactorGraph V) (_wf : GraphWF g)
    (mw : MailWF g) (i : Nat) (n : GNode V) (u : Nat) (un : GNode V)
    (hn : g.nodes[i]? = some n) (hun : g.nodes[u]? = some un)
    (hu : u ∈ senders n) : (n.received_messages.lookup un.name).isSome = true := by
  have := mem_keys_of_mem_senders g mw i n u un hn hun hu
  simp only [GNode.mailboxKeys] at this
  exact lookup_isSome_of_mem_keys n.received_messages un.name this

theorem fetchMessage_isSome {V : Type} (g : FactorGraph V) (wf : GraphWF g)
    (mw : MailWF g) (i t : Nat) (n : GNode V) (hn : g.nodes[i]? = some n)
    (hcov : ∀ u ∈ n.neighbours, u ≠ t → u ∈ senders n) :
    ∀ nb ∈ n.neighbours.filter (fun nb => nb != t),
      (fetchMessage g n nb).isSome = true := by
  intro nb hnb
  rw [List.mem_filter] at hnb
  obtain ⟨hnbm, hnbt⟩ := hnb
  have hnblt : nb < g.nodes.length := wf.nbValid i n hn nb hnbm
  obtain ⟨nbN, hnbN⟩ : ∃ nbN, g.nodes[nb]? = some nbN :=
    ⟨g.nodes[nb], List.getElem?_eq_getElem hnblt⟩
  have hsendr : nb ∈ senders n := hcov nb hnbm (bne_iff_ne.mp hnbt)
  rw [fetchMessage, hnbN]
  exact lookup_received_isSome g wf mw i n nb nbN hn hnbN hsendr

theorem fetchWrapped_isSome {V : Type} (g : FactorGraph V) (n : GNode V)
    (i nb : Nat) (h : (fetchMessage g n nb).isSome = true) :
    (fetchWrapped g n i nb).isSome = true := by
  rw [fetchWrapped]
  obtain ⟨im, him⟩ := Option.isSome_iff_exists.mp h
  rw [him]
  cases him2 : im.destination != i <;> simp [him2]

theorem construct_message_spec {V : Type} [DecidableEq V] (g : FactorGraph V)
    (wf : GraphWF g) (mw : MailWF g) (i t : Nat)
    (hgt : get_target g i = some t) :
    ∃ m, construct_message g i = some m ∧ m.source = i ∧ m.destination = t := by
  obtain ⟨n, hn⟩ : ∃ n, g.nodes[i]? = some n := by
    cases hni : g.nodes[i]? with
    | none => rw [get_target, hni] at hgt; cases hgt
    | some n => exact ⟨n, rfl⟩
  have hspec := get_target_spec g i n hn (wf.nbNodup i n hn)
    (senders_sub g mw i n hn) (senders_nodup g mw i n hn)
  obtain ⟨htm, hcov, hguard⟩ := hspec.1 t hgt
  have htlt : t < g.nodes.length := wf.nbValid i n hn t htm
  obtain ⟨tn, htn⟩ : ∃ tn, g.nodes[t]? = some tn :=
    ⟨g.nodes[t], List.getElem?_eq_getElem htlt⟩
  have hfetch := fetchMessage_isSome g wf mw i t n hn hcov
  simp only [construct_message, hn, hgt]
  cases hkind : n.kind with
  | varN =>
    simp only [make_variable_node_message, hn]
    cases hleaf : n.is_leaf with
    | true =>
      rw [if_pos rfl]
      exact ⟨VariableMessage i t (unity V), rfl, rfl, rfl⟩
    | false =>
      rw [if_neg (by simp)]
      obtain ⟨msgs, hmsgs⟩ := mapM_isSome_of_forall (fetchMessage g n)
        (n.neighbours.filter (fun nb => nb != t)) hfetch
      rw [hmsgs]
      exact ⟨_, rfl, rfl, rfl⟩
  | facN func cached =>
    obtain ⟨hfnd, d, hfd, hfdne⟩ := wf.facWF i n func cached hn hkind
    simp only [make_factor_node_message, hn, htn]
    cases hleaf : n.is_leaf with
    | true =>
      rw [if_pos rfl]
      obtain ⟨nsf, hnsf, hnsfd⟩ := make_not_sum_func_isSome func tn.name hfnd d hfd hfdne
      simp only [hnsf, FactorMessage, hnsfd]
      exact ⟨_, rfl, rfl, rfl⟩
    | false =>
      rw [if_neg (by simp)]
      obtain ⟨msgs, hmsgs⟩ := mapM_isSome_of_forall (fetchWrapped g n i)
        (n.neighbours.filter (fun nb => nb != t))
        (fun nb hnb => fetchWrapped_isSome g n i nb (hfetch nb hnb))
      simp only [hmsgs]
      have hprodne : productDomains
          (Constituent.fn func :: msgs.map Constituent.msg) ≠ [] :=
        productDomains_ne_nil _ (Constituent.fn func) (by simp) d hfd hfdne
      obtain ⟨nsf, hnsf, hnsfd⟩ := make_not_sum_func_isSome
        (make_product_func (Constituent.fn func :: msgs.map Constituent.msg))
        tn.name (List.nodup_dedup _) (productDomains _) rfl hprodne
      simp only [hnsf, FactorMessage, hnsfd]
      exact ⟨_, rfl, rfl, rfl⟩

/- ----------------------------------------------------------------- -/
/- C3 stage D: delivery mechanics and invariant preservation.         -/
/- ----------------------------------------------------------------- -/

theorem skel_refl {V : Type} (g : FactorGraph V) : Skel g g :=
  ⟨rfl, fun _ => ⟨rfl, rfl, rfl⟩⟩

theorem skel_trans {V : Type} (g1 g2 g3 : FactorGraph V) (h12 : Skel g1 g2)
    (h23 : Skel g2 g3) : Skel g1 g3 := by
  refine ⟨h23.1.trans h12.1, fun j => ?_⟩
  obtain ⟨a2, b2, c2⟩ := h12.2 j
  obtain ⟨a3, b3, c3⟩ := h23.2 j
  exact ⟨a3.trans a2, b3.trans b2, c3.trans c2⟩

theorem entriesGrow_refl {V : Type} (g : FactorGraph V) : entriesGrow g g :=
  fun _ n _p hn hp => ⟨n, hn, hp⟩

theorem entriesGrow_trans {V : Type} (g1 g2 g3 : FactorGraph V)
    (h12 : entriesGrow g1 g2) (h23 : entriesGrow g2 g3) : entriesGrow g1 g3 := by
  intro j n p hn hp
  obtain ⟨n2, hn2, hp2⟩ := h12 j n p hn hp
  exact h23 j n2 p hn2 hp2

theorem skel_nodes_map_name {V : Type} (g g2 : FactorGraph V) (hs : Skel g g2) :
    g2.nodes.map GNode.name = g.nodes.map GNode.name := by
  refine List.ext_getElem? (fun j => ?_)
  rw [List.getElem?_map, List.getElem?_map]
  exact (hs.2 j).1

theorem skel_getElem {V : Type} (g g2 : FactorGraph V) (hs : Skel g g2) (j : Nat)
    (n2 : GNode V) (h : g2.nodes[j]? = some n2) :
    ∃ n1, g.nodes[j]? = some n1 ∧ n1.name = n2.name ∧
      n1.neighbours = n2.neighbours ∧ n1.kind = n2.kind := by
  obtain ⟨h1, h2, h3⟩ := hs.2 j
  rw [h] at h1 h2 h3
  cases hg : g.nodes[j]? with
  | none =>
    rw [hg] at h1
    cases h1
  | some n1 =>
    rw [hg] at h1 h2 h3
    simp only [Option.map_some'] at h1 h2 h3
    exact ⟨n1, rfl, (Option.some.inj h1).symm, (Option.some.inj h2).symm,
      (Option.some.inj h3).symm⟩

theorem graphWF_of_skel {V : Type} (g g2 : FactorGraph V) (wf : GraphWF g)
    (hs : Skel g g2) : GraphWF g2 := by
  constructor
  · rw [skel_nodes_map_name g g2 hs]
    exact wf.namesNodup
  · intro j n2 h t ht
    obtain ⟨n1, h1, _, hnb, _⟩ := skel_getElem g g2 hs j n2 h
    rw [hs.1]
    exact wf.nbValid j n1 h1 t (by rw [hnb]; exact ht)
  · intro j n2 h
    obtain ⟨n1, h1, _, hnb, _⟩ := skel_getElem g g2 hs j n2 h
    rw [← hnb]
    exact wf.nbNodup j n1 h1
  · intro j n2 t tn2 hj ht hmem
    obtain ⟨n1, h1, _, hnb1, _⟩ := skel_getElem g g2 hs j n2 hj
    obtain ⟨t1, ht1, _, hnb2, _⟩ := skel_getElem g g2 hs t tn2 ht
    rw [← hnb2]
    exact wf.nbSymm j n1 t t1 h1 ht1 (by rw [hnb1]; exact hmem)
  · intro j n2 h
    obtain ⟨n1, h1, _, hnb, _⟩ := skel_getElem g g2 hs j n2 h
    rw [← hnb]
    exact wf.nbIrrefl j n1 h1
  · intro j n2 f c h hk
    obtain ⟨n1, h1, _, _, hkind⟩ := skel_getElem g g2 hs j n2 h
    exact wf.facWF j n1 f c h1 (by rw [hkind]; exact hk)

theorem send_eq {V : Type} (g : FactorGraph V) (i t : Nat) (n tn : GNode V)
    (m : Message V) (hn : g.nodes[i]? = some n) (htn : g.nodes[t]? = some tn)
    (hdest : m.destination = t) :
    send g i m = { g with nodes := g.nodes.set t (setReceived tn n.name m) } := by
  simp only [send, hn, hdest, updateNode, htn]

theorem setReceived_fresh {V : Type} (tn : GNode V) (k : String) (m : Message V)
    (hfresh : k ∉ tn.mailboxKeys) :
    (setReceived tn k m).received_messages = tn.received_messages ++ [(k, m)] := by
  have hcontains : tn.mailboxKeys.contains k = false := by
    cases hc : tn.mailboxKeys.contains k with
    | false => rfl
    | true => exact absurd (List.mem_of_elem_eq_true hc) hfresh
  simp only [setReceived, hcontains]
  simp

theorem send_skel {V : Type} (g : FactorGraph V) (i t : Nat) (n tn : GNode V)
    (m : Message V) (hn : g.nodes[i]? = some n) (htn : g.nodes[t]? = some tn)
    (hdest : m.destination = t) : Skel g (send g i m) := by
  rw [send_eq g i t n tn m hn htn hdest]
  constructor
  · simp
  · intro j
    by_cases hj : t = j
    · subst hj
      have hset : (g.nodes.set t (setReceived tn n.name m))[t]? =
          some (setReceived tn n.name m) := List.getElem?_set_self (getElem?_some_lt htn)
      refine ⟨?_, ?_, ?_⟩ <;>
        · show ((g.nodes.set t _)[t]?).map _ = _
          rw [hset, htn]
          rfl
    · refine ⟨?_, ?_, ?_⟩ <;>
        · show ((g.nodes.set t _)[j]?).map _ = _
          rw [List.getElem?_set_ne hj]

theorem send_entriesGrow {V : Type} (g : FactorGraph V) (i t : Nat) (n tn : GNode V)
    (m : Message V) (hn : g.nodes[i]? = some n) (htn : g.nodes[t]? = some tn)
    (hdest : m.destination = t) (hfresh : n.name ∉ tn.mailboxKeys) :
    entriesGrow g (send g i m) := by
  rw [send_eq g i t n tn m hn htn hdest]
  intro j nj p hj hp
  by_cases hjt : t = j
  · subst hjt
    rw [htn] at hj
    injection hj with he
    refine ⟨setReceived tn n.name m, ?_, ?_⟩
    · exact List.getElem?_set_self (getElem?_some_lt htn)
    · rw [setReceived_fresh tn n.name m hfresh]
      refine List.mem_append_left _ ?_
      rw [he]
      exact hp
  · exact ⟨nj, by rw [show ({ g with nodes := g.nodes.set t (setReceived tn n.name m) } :
      FactorGraph V).nodes = g.nodes.set t (setReceived tn n.name m) from rfl,
      List.getElem?_set_ne hjt]; exact hj, hp⟩

theorem send_totalSent {V : Type} (g : FactorGraph V) (i t : Nat) (n tn : GNode V)
    (m : Message V) (hn : g.nodes[i]? = some n) (htn : g.nodes[t]? = some tn)
    (hdest : m.destination = t) (hfresh : n.name ∉ tn.mailboxKeys) :
    totalSent (send g i m) = totalSent g + 1 := by
  rw [send_eq g i t n tn m hn htn hdest]
  unfold totalSent
  refine sum_map_set_add_one _ g.nodes t tn (setReceived tn n.name m) htn ?_
  rw [setReceived_fresh tn n.name m hfresh]
  simp

theorem send_mailWF {V : Type} (g : FactorGraph V) (wf : GraphWF g) (mw : MailWF g)
    (i t : Nat) (n tn : GNode V) (m : Message V)
    (hn : g.nodes[i]? = some n) (htn : g.nodes[t]? = some tn)
    (hsrc : m.source = i) (hdest : m.destination = t)
    (hadj : t ∈ n.neighbours) (hfresh : n.name ∉ tn.mailboxKeys) :
    MailWF (send g i m) := by
  have hskel := send_skel g i t n tn m hn htn hdest
  have hseq := send_eq g i t n tn m hn htn hdest
  have hnodes : (send g i m).nodes = g.nodes.set t (setReceived tn n.name m) := by
    rw [hseq]
  have hat : (send g i m).nodes[t]? = some (setReceived tn n.name m) := by
    rw [hnodes]
    exact List.getElem?_set_self (getElem?_some_lt htn)
  have hother : ∀ j, t ≠ j → (send g i m).nodes[j]? = g.nodes[j]? := by
    intro j hj
    rw [hnodes]
    exact List.getElem?_set_ne hj
  have hrecv : (setReceived tn n.name m).received_messages
      = tn.received_messages ++ [(n.name, m)] := setReceived_fresh tn n.name m hfresh
  have htrans : ∀ (s : Nat) (sn : GNode V), g.nodes[s]? = some sn →
      ∃ sn2, (send g i m).nodes[s]? = some sn2 ∧ sn2.name = sn.name := by
    intro s sn hs
    by_cases hst : t = s
    · subst hst
      rw [hs] at htn
      injection htn with he
      exact ⟨setReceived tn n.name m, hat, by rw [he]; rfl⟩
    · exact ⟨sn, by rw [hother s hst]; exact hs, rfl⟩
  constructor
  · intro j nj p hj hp
    by_cases hjt : t = j
    · subst hjt
      rw [hat] at hj
      injection hj with he
      subst he
      rw [hrecv] at hp
      rcases List.mem_append.mp hp with hold | hnew
      · obtain ⟨h1, h2, sn, hsn, hsname⟩ := mw.keysSrc t tn p htn hold
        obtain ⟨sn2, hsn2, hsn2name⟩ := htrans p.2.source sn hsn
        exact ⟨h1, h2, sn2, hsn2, by rw [hsn2name, hsname]⟩
      · simp only [List.mem_singleton] at hnew
        subst hnew
        simp only [hsrc, hdest]
        refine ⟨?_, by simp, ?_⟩
        · show i ∈ (setReceived tn n.name m).neighbours
          exact wf.nbSymm i n t tn hn htn hadj
        · obtain ⟨sn2, hsn2, hsn2name⟩ := htrans i n hn
          exact ⟨sn2, hsn2, hsn2name⟩
    · rw [hother j hjt] at hj
      obtain ⟨h1, h2, sn, hsn, hsname⟩ := mw.keysSrc j nj p hj hp
      obtain ⟨sn2, hsn2, hsn2name⟩ := htrans p.2.source sn hsn
      exact ⟨h1, h2, sn2, hsn2, by rw [hsn2name, hsname]⟩
  · intro j nj hj
    by_cases hjt : t = j
    · subst hjt
      rw [hat] at hj
      injection hj with he
      subst he
      show ((setReceived tn n.name m).received_messages.map Prod.fst).Nodup
      rw [hrecv]
      rw [List.map_append]
      simp only [List.map_cons, List.map_nil]
      rw [List.nodup_append]
      refine ⟨mw.keysNodup t tn htn, List.nodup_singleton _, ?_⟩
      intro a ha hb
      simp only [List.mem_singleton] at hb
      subst hb
      exact hfresh ha
    · rw [hother j hjt] at hj
      exact mw.keysNodup j nj hj

/- ----------------------------------------------------------------- -/
/- C3 stage E: eligibility is stable across other nodes' deliveries.  -/
/- ----------------------------------------------------------------- -/

theorem get_target_isSome_of_eligible {V : Type} (g : FactorGraph V) (wf : GraphWF g)
    (mw : MailWF g) (j : Nat) (nj : GNode V) (hj : g.nodes[j]? = some nj)
    (t : Nat) (hel : EligibleTarget g nj t) : (get_target g j).isSome = true := by
  have hspec := get_target_spec g j nj hj (wf.nbNodup j nj hj)
    (senders_sub g mw j nj hj) (senders_nodup g mw j nj hj)
  cases hgt : get_target g j with
  | some x => rfl
  | none => exact absurd hel (hspec.2.1.mp hgt t hel.1)

theorem eligible_stable_send {V : Type} (g : FactorGraph V) (wf : GraphWF g)
    (_mw : MailWF g) (i t j tj : Nat) (n tn nj : GNode V) (m : Message V)
    (hn : g.nodes[i]? = some n) (htn : g.nodes[t]? = some tn)
    (hsrc : m.source = i) (hdest : m.destination = t)
    (hfresh : n.name ∉ tn.mailboxKeys)
    (hij : i ≠ j) (hj : g.nodes[j]? = some nj)
    (hel : EligibleTarget g nj tj) :
    ∃ nj2, (send g i m).nodes[j]? = some nj2 ∧ EligibleTarget (send g i m) nj2 tj := by
  obtain ⟨htjm, hcov, hguard⟩ := hel
  have htjlt : tj < g.nodes.length := wf.nbValid j nj hj tj htjm
  obtain ⟨tjn, htjn⟩ : ∃ tjn, g.nodes[tj]? = some tjn :=
    ⟨g.nodes[tj], List.getElem?_eq_getElem htjlt⟩
  rw [htjn] at hguard
  have hnodes : (send g i m).nodes = g.nodes.set t (setReceived tn n.name m) := by
    rw [send_eq g i t n tn m hn htn hdest]
  have hat : (send g i m).nodes[t]? = some (setReceived tn n.name m) := by
    rw [hnodes]
    exact List.getElem?_set_self (getElem?_some_lt htn)
  have hother : ∀ s, t ≠ s → (send g i m).nodes[s]? = g.nodes[s]? := by
    intro s hs
    rw [hnodes]
    exact List.getElem?_set_ne hs
  have hrecv := setReceived_fresh tn n.name m hfresh
  have hkeys2 : (setReceived tn n.name m).mailboxKeys = tn.mailboxKeys ++ [n.name] := by
    show (setReceived tn n.name m).received_messages.map Prod.fst = _
    rw [hrecv, List.map_append]
    rfl
  have hsend2 : senders (setReceived tn n.name m) = senders tn ++ [i] := by
    show (setReceived tn n.name m).received_messages.map (fun p => p.2.source) = _
    rw [hrecv, List.map_append]
    show _ ++ [m.source] = _ ++ [i]
    rw [hsrc]
    rfl
  by_cases hjt : t = j
  · subst hjt
    rw [hj] at htn
    injection htn with he
    have htjt : tj ≠ t := by
      intro heq
      subst heq
      exact wf.nbIrrefl tj nj hj htjm
    refine ⟨setReceived tn n.name m, hat, ?_, ?_, ?_⟩
    · show tj ∈ tn.neighbours
      rw [← he]
      exact htjm
    · intro u hu hutj
      show u ∈ senders (setReceived tn n.name m)
      rw [hsend2]
      refine List.mem_append_left _ ?_
      rw [← he]
      refine hcov u ?_ hutj
      show u ∈ nj.neighbours
      have : u ∈ tn.neighbours := hu
      rw [← he] at this
      exact this
    · rw [hother tj (fun heq => htjt heq.symm)]
      rw [htjn]
      show (setReceived tn n.name m).name ∉ tjn.mailboxKeys
      show tn.name ∉ tjn.mailboxKeys
      rw [← he]
      exact hguard
  · refine ⟨nj, by rw [hother j hjt]; exact hj, htjm, ?_, ?_⟩
    · intro u hu hutj
      exact hcov u hu hutj
    · by_cases httj : t = tj
      · subst httj
        rw [hat]
        rw [htjn] at htn
        injection htn with he2
        show nj.name ∉ (setReceived tn n.name m).mailboxKeys
        rw [hkeys2]
        simp only [List.mem_append, List.mem_singleton]
        rintro (hin | heq)
        · rw [he2] at hguard
          exact hguard hin
        · exact hij (name_inj g wf i j n nj hn hj heq.symm)
      · rw [hother tj httj, htjn]
        exact hguard

/-- One delivery step of the propagation loop, with everything the fold
needs: the step succeeds, preserves the invariant, grows exactly one
mailbox entry, and keeps every other node's eligibility. -/
theorem send_step_spec {V : Type} [DecidableEq V] (g : FactorGraph V)
    (wf : GraphWF g) (mw : MailWF g) (i : Nat)
    (hi : (get_target g i).isSome = true) :
    ∃ g2, (match construct_message g i with
        | none => none
        | some m => some (send g i m)) = some g2 ∧
      GraphWF g2 ∧ MailWF g2 ∧ Skel g g2 ∧ entriesGrow g g2 ∧
      totalSent g2 = totalSent g + 1 ∧
      (∀ j, i ≠ j → (get_target g j).isSome = true → (get_target g2 j).isSome = true) := by
  obtain ⟨t, ht⟩ := Option.isSome_iff_exists.mp hi
  obtain ⟨m, hm, hmsrc, hmdest⟩ := construct_message_spec g wf mw i t ht
  obtain ⟨n, hn⟩ : ∃ n, g.nodes[i]? = some n := by
    cases hni : g.nodes[i]? with
    | none => rw [get_target, hni] at ht; cases ht
    | some n => exact ⟨n, rfl⟩
  have hspec := get_target_spec g i n hn (wf.nbNodup i n hn)
    (senders_sub g mw i n hn) (senders_nodup g mw i n hn)
  obtain ⟨htm, hcov, hguard⟩ := hspec.1 t ht
  have htlt : t < g.nodes.length := wf.nbValid i n hn t htm
  obtain ⟨tn, htn⟩ : ∃ tn, g.nodes[t]? = some tn :=
    ⟨g.nodes[t], List.getElem?_eq_getElem htlt⟩
  rw [htn] at hguard
  have hskel : Skel g (send g i m) := send_skel g i t n tn m hn htn hmdest
  have hwf2 : GraphWF (send g i m) := graphWF_of_skel g (send g i m) wf hskel
  have hmw2 : MailWF (send g i m) :=
    send_mailWF g wf mw i t n tn m hn htn hmsrc hmdest htm hguard
  refine ⟨send g i m, by rw [hm], hwf2, hmw2, hskel,
    send_entriesGrow g i t n tn m hn htn hmdest hguard,
    send_totalSent g i t n tn m hn htn hmdest hguard, ?_⟩
  intro j hij hj
  obtain ⟨nj, hnj⟩ : ∃ nj, g.nodes[j]? = some nj := by
    cases hnj : g.nodes[j]? with
    | none => rw [get_target, hnj] at hj; cases hj
    | some nj => exact ⟨nj, rfl⟩
  obtain ⟨tj, htj⟩ := Option.isSome_iff_exists.mp hj
  have hspecj := get_target_spec g j nj hnj (wf.nbNodup j nj hnj)
    (senders_sub g mw j nj hnj) (senders_nodup g mw j nj hnj)
  have helj := hspecj.1 tj htj
  obtain ⟨nj2, hnj2, helj2⟩ := eligible_stable_send g wf mw i t j tj n tn nj m
    hn htn hmsrc hmdest hguard hij hnj helj
  exact get_target_isSome_of_eligible (send g i m) hwf2 hmw2 j nj2 hnj2 tj helj2

theorem sendLoop_spec {V : Type} [DecidableEq V] :
    ∀ el : List Nat, el.Nodup →
      ∀ g : FactorGraph V, GraphWF g → MailWF g →
        (∀ j ∈ el, (get_target g j).isSome = true) →
        ∃ g2, el.foldlM (fun gc j =>
            match construct_message gc j with
            | none => none
            | some m => some (send gc j m)) g = some g2 ∧
          GraphWF g2 ∧ MailWF g2 ∧ Skel g g2 ∧ entriesGrow g g2 ∧
          totalSent g2 = totalSent g + el.length := by
  intro el
  induction el with
  | nil =>
    intro _ g wf mw _
    exact ⟨g, rfl, wf, mw, skel_refl g, entriesGrow_refl g, by simp⟩
  | cons j rest ih =>
    intro hnd g wf mw hall
    obtain ⟨g2, hstep, wf2, mw2, skel2, grow2, tot2, hstable⟩ :=
      send_step_spec g wf mw j (hall j (by simp))
    have hrest : ∀ j2 ∈ rest, (get_target g2 j2).isSome = true := by
      intro j2 hj2
      have hne : j ≠ j2 := by
        intro he
        subst he
        exact (List.nodup_cons.mp hnd).1 hj2
      exact hstable j2 hne (hall j2 (by simp [hj2]))
    obtain ⟨g3, hfold, wf3, mw3, skel3, grow3, tot3⟩ :=
      ih hnd.of_cons g2 wf2 mw2 hrest
    refine ⟨g3, ?_, wf3, mw3, skel_trans g g2 g3 skel2 skel3,
      entriesGrow_trans g g2 g3 grow2 grow3, ?_⟩
    · simp only [List.foldlM_cons]
      rw [hstep]
      simp only [Option.bind_eq_bind, Option.some_bind]
      exact hfold
    · rw [tot3, tot2]
      simp
      omega

theorem totalDeg_eq_of_skel {V : Type} (g g2 : FactorGraph V) (hs : Skel g g2) :
    totalDeg g2 = totalDeg g := by
  unfold totalDeg
  congr 1
  refine List.ext_getElem? fun j => ?_
  rw [List.getElem?_map, List.getElem?_map]
  have h2 := (hs.2 j).2.1
  cases ha : g2.nodes[j]? <;> cases hb : g.nodes[j]? <;> rw [ha, hb] at h2 <;> simp_all

/-- The propagation loop converges, preserving the invariant, within
`totalDeg g + 1 - totalSent g` rounds: each non-final round delivers at
least one message and no directed edge carries two. -/
theorem propagate_converges {V : Type} [DecidableEq V] :
    ∀ (k : Nat) (g : FactorGraph V), GraphWF g → MailWF g →
      totalDeg g + 1 ≤ totalSent g + k →
      ∃ gf, propagate k g = some gf ∧ GraphWF gf ∧ MailWF gf ∧ Skel g gf ∧
        entriesGrow g gf ∧ (get_eligible_senders gf).isEmpty = true := by
  intro k
  induction k with
  | zero =>
    intro g wf mw hbound
    have := totalSent_le_totalDeg g wf mw
    omega
  | succ k ih =>
    intro g wf mw hbound
    cases hel : (get_eligible_senders g).isEmpty with
    | true =>
      refine ⟨g, ?_, wf, mw, skel_refl g, entriesGrow_refl g, hel⟩
      rw [propagate, hel]
      exact if_pos rfl
    | false =>
      have hne : get_eligible_senders g ≠ [] := by
        intro he
        rw [he] at hel
        cases hel
      have hlen : 1 ≤ (get_eligible_senders g).length := by
        cases hc : get_eligible_senders g with
        | nil => exact absurd hc hne
        | cons a l => simp
      have hmem : ∀ j ∈ get_eligible_senders g, (get_target g j).isSome = true := by
        intro j hj
        rw [get_eligible_senders, List.mem_filter] at hj
        exact hj.2
      have hndel : (get_eligible_senders g).Nodup :=
        (List.nodup_range _).filter _
      obtain ⟨g2, hg2, wf2, mw2, skel2, grow2, tot2⟩ :=
        sendLoop_spec (get_eligible_senders g) hndel g wf mw hmem
      obtain ⟨gf, hgf, wff, mwf, skelf, growf, hconv⟩ := ih g2 wf2 mw2 (by
        rw [totalDeg_eq_of_skel g g2 skel2, tot2]
        omega)
      refine ⟨gf, ?_, wff, mwf, skel_trans g g2 gf skel2 skelf,
        entriesGrow_trans g g2 gf grow2 growf, hconv⟩
      rw [propagate, hel]
      simp only [Bool.false_eq_true, if_false]
      rw [roundStep, hg2]
      exact hgf

/- ----------------------------------------------------------------- -/
/- C3 stage F: on acyclic graphs, convergence means every directed    -/
/- edge has been delivered.                                           -/
/- ----------------------------------------------------------------- -/

theorem nir_tail {α : Type} (a : α) (l : List α) (h : NoImmediateRepeat (a :: l)) :
    NoImmediateRepeat l := by
  match l with
  | [] => trivial
  | [b] => trivial
  | b :: c :: rest => exact h.2

theorem isPath_of_nir {α : Type} [DecidableEq α] {G : SimpleGraph α}
    (hacyc : G.IsAcyclic) :
    ∀ {a b : α} (w : G.Walk a b), NoImmediateRepeat w.support → w.IsPath := by
  intro a b w
  induction w with
  | nil => intro _; exact SimpleGraph.Walk.IsPath.nil
  | @cons u v b2 h p ih =>
    intro hnir
    rw [SimpleGraph.Walk.support_cons] at hnir
    have hnirp : NoImmediateRepeat p.support := nir_tail _ _ hnir
    have hp : p.IsPath := ih hnirp
    by_cases hmem : u ∈ p.support
    · exfalso
      have hq : (p.takeUntil u hmem).IsPath := hp.takeUntil hmem
      have huniq := hacyc.path_unique
        (⟨(p.takeUntil u hmem).reverse, hq.reverse⟩ : G.Path u v)
        (SimpleGraph.Path.singleton h)
      have hwalk : (p.takeUntil u hmem).reverse = SimpleGraph.Walk.cons h SimpleGraph.Walk.nil := by
        have := congrArg Subtype.val huniq
        exact this
      have hqeq : p.takeUntil u hmem =
          (SimpleGraph.Walk.cons h SimpleGraph.Walk.nil).reverse := by
        rw [← hwalk, SimpleGraph.Walk.reverse_reverse]
      have hqsup : (p.takeUntil u hmem).support = [v, u] := by
        rw [hqeq, SimpleGraph.Walk.support_reverse, SimpleGraph.Walk.support_cons,
          SimpleGraph.Walk.support_nil]
        rfl
      have hpsup : p.support = [v, u] ++ (p.dropUntil u hmem).support.tail := by
        conv =>
          left
          rw [(p.take_spec hmem).symm]
        rw [SimpleGraph.Walk.support_append, hqsup]
      rw [hpsup] at hnir
      exact hnir.1 rfl
    · exact hp.cons hmem

theorem adj_of_mem_neighbours {V : Type} (g : FactorGraph V) (wf : GraphWF g)
    (i t : Nat) (n : GNode V) (hn : g.nodes[i]? = some n) (ht : t ∈ n.neighbours) :
    (toSimple g).Adj i t := by
  refine ⟨?_, Or.inl ⟨n, hn, ht⟩⟩
  intro he
  subst he
  exact wf.nbIrrefl i n hn ht

theorem mem_neighbours_of_adj {V : Type} (g : FactorGraph V) (wf : GraphWF g)
    (i t : Nat) (h : (toSimple g).Adj i t) :
    ∃ n, g.nodes[i]? = some n ∧ t ∈ n.neighbours := by
  rcases h.2 with ⟨n, hn, ht⟩ | ⟨tn, htn, hit⟩
  · exact ⟨n, hn, ht⟩
  · have hlt : i < g.nodes.length := wf.nbValid t tn htn i hit
    obtain ⟨n, hn⟩ : ∃ n, g.nodes[i]? = some n :=
      ⟨g.nodes[i], List.getElem?_eq_getElem hlt⟩
    exact ⟨n, hn, wf.nbSymm t tn i n htn hn hit⟩

theorem adj_lt {V : Type} (g : FactorGraph V) (wf : GraphWF g) (i t : Nat)
    (h : (toSimple g).Adj i t) : i < g.nodes.length ∧ t < g.nodes.length := by
  obtain ⟨n, hn, ht⟩ := mem_neighbours_of_adj g wf i t h
  exact ⟨getElem?_some_lt hn, wf.nbValid i n hn t ht⟩

theorem walk_support_lt {V : Type} (g : FactorGraph V) (wf : GraphWF g) :
    ∀ {a b : Nat} (w : (toSimple g).Walk a b), a < g.nodes.length →
      ∀ x ∈ w.support, x < g.nodes.length := by
  intro a b w
  induction w with
  | nil =>
    intro ha x hx
    rw [SimpleGraph.Walk.support_nil] at hx
    rw [List.mem_singleton] at hx
    subst hx
    exact ha
  | @cons u v b2 h p ih =>
    intro ha x hx
    rw [SimpleGraph.Walk.support_cons] at hx
    rcases List.mem_cons.mp hx with he | hx2
    · subst he
      exact ha
    · exact ih (adj_lt g wf u v h).2 x hx2

theorem converged_get_target_none {V : Type} (g : FactorGraph V)
    (hconv : (get_eligible_senders g).isEmpty = true) :
    ∀ i : Nat, get_target g i = none := by
  intro i
  by_cases hlt : i < g.nodes.length
  · cases hgt : get_target g i with
    | none => rfl
    | some t =>
      have hmem : i ∈ get_eligible_senders g := by
        rw [get_eligible_senders, List.mem_filter]
        exact ⟨List.mem_range.mpr hlt, by rw [hgt]; rfl⟩
      rw [List.isEmpty_iff] at hconv
      rw [hconv] at hmem
      cases hmem
  · rw [get_target, List.getElem?_eq_none (by omega)]
    rfl

theorem unsent_has_unsent_prereq {V : Type} (g : FactorGraph V) (wf : GraphWF g)
    (mw : MailWF g) (hconv : ∀ i2 : Nat, get_target g i2 = none)
    (i t : Nat) (n : GNode V) (hn : g.nodes[i]? = some n) (ht : t ∈ n.neighbours)
    (hunsent : ¬ Sent g i t) :
    ∃ u ∈ n.neighbours, u ≠ t ∧ ¬ Sent g u i := by
  have hspec := get_target_spec g i n hn (wf.nbNodup i n hn)
    (senders_sub g mw i n hn) (senders_nodup g mw i n hn)
  have hnel : ¬ EligibleTarget g n t := hspec.2.1.mp (hconv i) t ht
  have htlt : t < g.nodes.length := wf.nbValid i n hn t ht
  obtain ⟨tn, htn⟩ : ∃ tn, g.nodes[t]? = some tn :=
    ⟨g.nodes[t], List.getElem?_eq_getElem htlt⟩
  have hguard : n.name ∉ tn.mailboxKeys := by
    intro hmemk
    exact hunsent ⟨n, tn, hn, htn, hmemk⟩
  have hncov : ¬ ∀ u ∈ n.neighbours, u ≠ t → u ∈ senders n := by
    intro hcov
    exact hnel ⟨ht, hcov, by rw [htn]; exact hguard⟩
  push_neg at hncov
  obtain ⟨u, hu, hut, hus⟩ := hncov
  refine ⟨u, hu, hut, ?_⟩
  intro hsent
  obtain ⟨un, n2, hun, hn2, hkey⟩ := hsent
  rw [hn] at hn2
  injection hn2 with he
  subst he
  exact hus (mem_senders_of_mem_keys g wf mw i n u un hn hun hkey)

theorem prereq_chain {V : Type} (g : FactorGraph V) (wf : GraphWF g) (mw : MailWF g)
    (hconv : ∀ i2 : Nat, get_target g i2 = none)
    (i t : Nat) (n : GNode V) (hn : g.nodes[i]? = some n) (ht : t ∈ n.neighbours)
    (hunsent : ¬ Sent g i t) :
    ∀ k : Nat,
      ∃ (a v : Nat) (h : (toSimple g).Adj a v) (w2 : (toSimple g).Walk v t),
        NoImmediateRepeat (SimpleGraph.Walk.cons h w2).support ∧
        (SimpleGraph.Walk.cons h w2).length = k + 1 ∧
        ¬ Sent g a v := by
  intro k
  induction k with
  | zero =>
    refine ⟨i, t, adj_of_mem_neighbours g wf i t n hn ht, SimpleGraph.Walk.nil,
      ?_, by simp, hunsent⟩
    rw [SimpleGraph.Walk.support_cons, SimpleGraph.Walk.support_nil]
    trivial
  | succ k ihk =>
    obtain ⟨a, v, h, w2, hnir, hlen, hvun⟩ := ihk
    obtain ⟨na, hna, hva⟩ := mem_neighbours_of_adj g wf a v h
    obtain ⟨u, hu, huv, huns⟩ :=
      unsent_has_unsent_prereq g wf mw hconv a v na hna hva hvun
    have hadj2 : (toSimple g).Adj u a :=
      ((adj_of_mem_neighbours g wf a u na hna hu)).symm
    refine ⟨u, a, hadj2, SimpleGraph.Walk.cons h w2, ?_, by
      rw [SimpleGraph.Walk.length_cons, hlen], huns⟩
    rw [SimpleGraph.Walk.support_cons]
    rw [SimpleGraph.Walk.support_cons] at hnir ⊢
    rw [SimpleGraph.Walk.support_eq_cons w2] at hnir ⊢
    exact ⟨huv, hnir⟩

theorem progress {V : Type} (g : FactorGraph V) (wf : GraphWF g)
    (mw : MailWF g) (hacyc : (toSimple g).IsAcyclic)
    (hconv : (get_eligible_senders g).isEmpty = true) :
    ∀ (i t : Nat) (n : GNode V), g.nodes[i]? = some n → t ∈ n.neighbours →
      Sent g i t := by
  intro i t n hn ht
  by_contra hunsent
  obtain ⟨a, v, h, w2, hnir, hlen, _⟩ :=
    prereq_chain g wf mw (converged_get_target_none g hconv) i t n hn ht hunsent
      g.nodes.length
  have hpath : (SimpleGraph.Walk.cons h w2).IsPath := isPath_of_nir hacyc _ hnir
  have hnd := hpath.support_nodup
  have hbound : ∀ x ∈ (SimpleGraph.Walk.cons h w2).support, x < g.nodes.length :=
    walk_support_lt g wf _ (adj_lt g wf a v h).1
  have hsub : (SimpleGraph.Walk.cons h w2).support.toFinset ⊆
      Finset.range g.nodes.length := by
    intro x hx
    rw [List.mem_toFinset] at hx
    rw [Finset.mem_range]
    exact hbound x hx
  have hcard := Finset.card_le_card hsub
  rw [List.toFinset_card_of_nodup hnd, Finset.card_range,
    SimpleGraph.Walk.length_support, hlen] at hcard
  omega

/- ----------------------------------------------------------------- -/
/- C3 stage G: assembly.                                              -/
/- ----------------------------------------------------------------- -/

theorem mailWF_of_empty {V : Type} (g : FactorGraph V)
    (hempty : ∀ (i : Nat) (n : GNode V), g.nodes[i]? = some n →
      n.received_messages = []) : MailWF g := by
  constructor
  · intro i n p hn hp
    rw [hempty i n hn] at hp
    cases hp
  · intro i n hn
    rw [GNode.mailboxKeys, hempty i n hn]
    exact List.nodup_nil

theorem skel_symm {V : Type} (g g2 : FactorGraph V) (hs : Skel g g2) : Skel g2 g := by
  refine ⟨hs.1.symm, fun i => ?_⟩
  obtain ⟨h1, h2, h3⟩ := hs.2 i
  exact ⟨h1.symm, h2.symm, h3.symm⟩

theorem adjOf_of_skel {V : Type} (g g2 : FactorGraph V) (hs : Skel g g2)
    (i j : Nat) (h : adjOf g2 i j) : adjOf g i j := by
  rcases h with ⟨n, hn, hj⟩ | ⟨n, hn, hj⟩
  · obtain ⟨n1, hn1, _, hnb, _⟩ := skel_getElem g g2 hs i n hn
    exact Or.inl ⟨n1, hn1, by rw [hnb]; exact hj⟩
  · obtain ⟨n1, hn1, _, hnb, _⟩ := skel_getElem g g2 hs j n hn
    exact Or.inr ⟨n1, hn1, by rw [hnb]; exact hj⟩

theorem toSimple_eq_of_skel {V : Type} (g g2 : FactorGraph V) (hs : Skel g g2) :
    toSimple g2 = toSimple g := by
  refine SimpleGraph.ext ?_
  funext i j
  apply propext
  constructor
  · intro h
    exact ⟨h.1, adjOf_of_skel g g2 hs i j h.2⟩
  · intro h
    exact ⟨h.1, adjOf_of_skel g2 g (skel_symm g g2 hs) i j h.2⟩

theorem isAcyclic_of_edge_subsingleton {α : Type} (G : SimpleGraph α)
    (hsub : ∀ e1 ∈ G.edgeSet, ∀ e2 ∈ G.edgeSet, e1 = e2) : G.IsAcyclic := by
  intro v p hp
  have hlen := hp.three_le_length
  have hnd : p.edges.Nodup := hp.edges_nodup
  have hlene : 3 ≤ p.edges.length := by
    rw [SimpleGraph.Walk.length_edges]
    exact hlen
  cases hpe : p.edges with
  | nil =>
    rw [hpe] at hlene
    simp at hlene
  | cons e1 rest =>
    cases rest with
    | nil =>
      rw [hpe] at hlene
      simp at hlene
    | cons e2 rest2 =>
      have h1 : e1 ∈ G.edgeSet := p.edges_subset_edgeSet (by rw [hpe]; simp)
      have h2 : e2 ∈ G.edgeSet := p.edges_subset_edgeSet (by rw [hpe]; simp)
      have he12 : e1 = e2 := hsub e1 h1 e2 h2
      rw [hpe, List.nodup_cons] at hnd
      exact hnd.1 (by rw [he12]; simp)

theorem pGraph_node_cases (i : Nat) (n : GNode Bool)
    (hn : pGraph.nodes[i]? = some n) :
    (i = 0 ∧ n = pFac) ∨ (i = 1 ∧ n = pVar) := by
  have hi : i < 2 := getElem?_some_lt hn
  interval_cases i
  · exact Or.inl ⟨rfl,
      (Option.some.inj (show (some pFac : Option (GNode Bool)) = some n from hn)).symm⟩
  · exact Or.inr ⟨rfl,
      (Option.some.inj (show (some pVar : Option (GNode Bool)) = some n from hn)).symm⟩

theorem pGraph_wf : GraphWF pGraph := by
  constructor
  · decide
  · intro i n hn t ht
    rcases pGraph_node_cases i n hn with ⟨_, he⟩ | ⟨_, he⟩
    · subst he
      have ht1 : t = 1 := by simpa [pFac] using ht
      subst ht1
      decide
    · subst he
      have ht0 : t = 0 := by simpa [pVar] using ht
      subst ht0
      decide
  · intro i n hn
    rcases pGraph_node_cases i n hn with ⟨_, he⟩ | ⟨_, he⟩ <;> subst he <;> decide
  · intro i n t tn hn htn hmem
    rcases pGraph_node_cases i n hn with ⟨hi, he⟩ | ⟨hi, he⟩ <;>
      rcases pGraph_node_cases t tn htn with ⟨ht2, he2⟩ | ⟨ht2, he2⟩ <;>
        subst he <;> subst he2 <;> subst hi <;> subst ht2 <;> simp_all [pFac, pVar]
  · intro i n hn
    rcases pGraph_node_cases i n hn with ⟨hi, he⟩ | ⟨hi, he⟩ <;> subst he <;>
      subst hi <;> decide
  · intro i n f c hn hk
    rcases pGraph_node_cases i n hn with ⟨_, he⟩ | ⟨_, he⟩ <;> subst he
    · have hk2 : NodeKind.facN pFunc ([] : List (FFunc Bool)) = NodeKind.facN f c := hk
      injection hk2 with hf hc
      subst hf
      exact ⟨by decide, ⟨[("x1", [true, false])], rfl, by decide⟩⟩
    · exact NodeKind.noConfusion
        (show (NodeKind.varN : NodeKind Bool) = NodeKind.facN f c from hk)

theorem pGraph_empty : ∀ (i : Nat) (n : GNode Bool),
    pGraph.nodes[i]? = some n → n.received_messages = [] := by
  intro i n hn
  rcases pGraph_node_cases i n hn with ⟨_, he⟩ | ⟨_, he⟩ <;> subst he <;> rfl

theorem pGraph_adj_cases (x y : Nat) (h : (toSimple pGraph).Adj x y) :
    (x = 0 ∧ y = 1) ∨ (x = 1 ∧ y = 0) := by
  rcases h.2 with ⟨n, hn, hy⟩ | ⟨n, hn, hx⟩
  · rcases pGraph_node_cases x n hn with ⟨hx0, he⟩ | ⟨hx1, he⟩ <;> subst he
    · exact Or.inl ⟨hx0, by simpa [pFac] using hy⟩
    · exact Or.inr ⟨hx1, by simpa [pVar] using hy⟩
  · rcases pGraph_node_cases y n hn with ⟨hy0, he⟩ | ⟨hy1, he⟩ <;> subst he
    · exact Or.inr ⟨by simpa [pFac] using hx, hy0⟩
    · exact Or.inl ⟨by simpa [pVar] using hx, hy1⟩

theorem pGraph_edge_unique : ∀ e1 ∈ (toSimple pGraph).edgeSet,
    ∀ e2 ∈ (toSimple pGraph).edgeSet, e1 = e2 := by
  have hall : ∀ e ∈ (toSimple pGraph).edgeSet, e = s(0, 1) := by
    intro e
    induction e using Sym2.ind with
    | _ x y =>
      intro he
      rw [SimpleGraph.mem_edgeSet] at he
      rcases pGraph_adj_cases x y he with ⟨hx, hy⟩ | ⟨hx, hy⟩
      · rw [hx, hy]
      · rw [hx, hy]
        exact Sym2.eq_swap
  intro e1 h1 e2 h2
  rw [hall e1 h1, hall e2 h2]

theorem pGraph_acyclic : (toSimple pGraph).IsAcyclic :=
  isAcyclic_of_edge_subsingleton _ pGraph_edge_unique

/-- The star graph refutes the diameter-round bound of C3: its hop
diameter is 2, yet after running 2 full scheduler rounds an eligible
sender remains, so `propagate` has not yet terminated. -/
theorem propagate_diameter_counterexample :
    diameter starGraph = 2 ∧
    (runRounds 2 starGraph).map
      (fun g2 => (get_eligible_senders g2).isEmpty) = some false :=
  ⟨by decide, rfl⟩

/-- C3 (amended): on every acyclic well-formed factor graph started with
all mailboxes empty, `propagate` terminates — within `totalDeg g + 1`
rounds (twice the edge count plus one), though not within
`diameter(graph)` rounds, which the 4-node star refutes — and over the
whole run exactly one message is delivered per direction per edge: the
loop halts with no eligible sender left, the topology is unchanged, each
final mailbox is keyed without duplicates by sender names and holds only
messages from neighbours addressed to its owner (so no direction carries
two messages), and for every directed edge the sender's name does appear
in the receiver's mailbox (every direction carries at least one, hence
exactly one, message). -/
theorem propagate_tree_spec {V : Type} [DecidableEq V] (g : FactorGraph V)
    (wf : GraphWF g)
    (hempty : ∀ (i : Nat) (n : GNode V), g.nodes[i]? = some n →
      n.received_messages = [])
    (hacyc : (toSimple g).IsAcyclic) :
    ∃ gf : FactorGraph V, propagate (totalDeg g + 1) g = some gf ∧
      (get_eligible_senders gf).isEmpty = true ∧
      Skel g gf ∧
      (∀ (j : Nat) (nf : GNode V), gf.nodes[j]? = some nf →
        nf.mailboxKeys.Nodup ∧
        ∀ p ∈ nf.received_messages,
          p.2.source ∈ nf.neighbours ∧ p.2.destination = j) ∧
      (∀ (i t : Nat) (n : GNode V), g.nodes[i]? = some n → t ∈ n.neighbours →
        Sent gf i t) := by
  have mw := mailWF_of_empty g hempty
  obtain ⟨gf, hrun, wff, mwf, skelf, _growf, hconv⟩ :=
    propagate_converges (totalDeg g + 1) g wf mw (by omega)
  refine ⟨gf, hrun, hconv, skelf, ?_, ?_⟩
  · intro j nf hj
    refine ⟨mwf.keysNodup j nf hj, fun p hp => ?_⟩
    obtain ⟨hsrc, hdst, _⟩ := mwf.keysSrc j nf p hj hp
    exact ⟨hsrc, hdst⟩
  · intro i t n hn ht
    have hacycf : (toSimple gf).IsAcyclic := by
      rw [toSimple_eq_of_skel g gf skelf]
      exact hacyc
    obtain ⟨nf, hnf, _, hnb, _⟩ := skel_getElem gf g (skel_symm g gf skelf) i n hn
    exact progress gf wff mwf hacycf hconv i t nf hnf (by rw [hnb]; exact ht)

theorem propagate_tree_spec_witness :
    ∃ gf : FactorGraph Bool, propagate (totalDeg pGraph + 1) pGraph = some gf ∧
      (get_eligible_senders gf).isEmpty = true ∧
      Skel pGraph gf ∧
      (∀ (j : Nat) (nf : GNode Bool), gf.nodes[j]? = some nf →
        nf.mailboxKeys.Nodup ∧
        ∀ p ∈ nf.received_messages,
          p.2.source ∈ nf.neighbours ∧ p.2.destination = j) ∧
      (∀ (i t : Nat) (n : GNode Bool), pGraph.nodes[i]? = some n →
        t ∈ n.neighbours → Sent gf i t) :=
  propagate_tree_spec pGraph pGraph_wf pGraph_empty pGraph_acyclic

end BayesFG
